import Mathlib

/-!
# Verification of the `optim` derivative-free optimization engine

Shallow embedding, in Lean 4, of the parts of the Go repository
`Baaaaam/optim` that the specification's claims talk about:

* the mesh projections (`mesh.Infinite.Nearest`, `mesh.Bounded.Nearest`),
* the solver driver (`optim.Solver.Next`),
* the evaluation layer (`optim.SerialEvaler.Eval`, `optim.CacheEvaler.Eval`,
  `optim.uniqof`, `optim.fillfromuniq`),
* the pattern-search method (`pattern.Method.Iterate`, `pattern.Poller.Poll`,
  `pattern.objStopper`),
* the particle-swarm method (`swarm.Particle.Move`, `swarm.Iterator.Iterate`,
  `swarm.Iterator.AddPoint`).

Modelling conventions:

* Go `float64` values are embedded as exact rationals (`ℚ`); IEEE rounding
  error is outside the model.  Objective values, which the code lets be
  `+Inf` (Go `math.Inf(1)` denotes "unevaluated / infeasible"), are embedded
  as `WithTop ℚ`, with `⊤` playing the role of `+Inf`.
* A point's SHA-1 hash (`Point.Hash` in `optim.go`, computed from the
  big-endian bit patterns of the coordinates) is injective on coordinate
  lists up to SHA-1 collisions; the model identifies a hash with the
  coordinate list itself, so "equal hash" means "equal position".
* Go interfaces (`Evaler`, `Objectiver`, `Searcher`, the mesh seen through
  its interface) become function/record parameters; a call to an interface
  method whose implementation is outside the component under study becomes
  an oracle argument so that theorems quantify over every implementation.
* Go slices become `List`s; out-of-range indexing, which panics in Go, is
  embedded with `getD`-style defaults and the theorems carry the
  length hypotheses that make the defaults unreachable.
-/

namespace Optim

/-- Objective value: a real number or `+Inf` (`math.Inf(1)` in the Go code). -/
abbrev Val : Type := WithTop ℚ

/-- Errors surfaced by the Go code.  `foundBetter` is
`pattern.FoundBetterErr`, `zeroStep` is `pattern.ZeroStepErr`, and `user n`
stands for an arbitrary error value returned by a user objective. -/
inductive GoErr where
  | foundBetter
  | zeroStep
  | user (n : ℕ)
deriving DecidableEq, Repr

/-- `optim.Point`: a position/value pair (src/optim.go). -/
structure Point where
  pos : List ℚ
  val : Val
deriving DecidableEq, Repr

/-- An objective function (`optim.Objectiver`): maps a position to a value
and an optional error.  Modelled as a pure function. -/
abbrev Objective : Type := List ℚ → Val × Option GoErr

/-- The mutable fields of `optim.Solver` (src/optim.go lines 25-38).  The
Go `int` fields are embedded as `ℤ`.  The `Method`, `Obj` and `Mesh`
interface fields become oracle arguments of `Solver.Next`. -/
structure Solver where
  maxIter : ℤ
  maxEval : ℤ
  maxNoImprove : ℤ
  minStep : ℚ
  neval : ℤ
  niter : ℤ
  noimprove : ℤ
  best : Point
  err : Option GoErr
deriving Repr

/-- `optim.Solver.Next` (src/optim.go lines 51-81).  The single call
`s.Method.Iterate(s.Obj, s.Mesh)` is passed in as its result triple
`iter = (best, n, err)`, and `meshStep` is the value of `s.Mesh.Step()`
when the stop predicates are evaluated (the method may have changed it
during the iteration).  Returns the updated solver and the `more` flag. -/
def Solver.Next (s : Solver) (iter : Point × ℤ × Option GoErr)
    (meshStep : ℚ) : Solver × Bool :=
  let s := if s.niter = 0 then { s with best := { s.best with val := ⊤ } } else s
  let best := iter.1
  let n := iter.2.1
  let err := iter.2.2
  let s := { s with err := err, neval := s.neval + n, niter := s.niter + 1 }
  let s :=
    if best.val < s.best.val then { s with best := best, noimprove := 0 }
    else { s with noimprove := s.noimprove + 1 }
  if s.err.isSome then (s, false)
  else
    let more :=
      (decide (s.maxNoImprove = 0) || decide (s.noimprove < s.maxNoImprove)) &&
      ((decide (s.maxIter = 0) || decide (s.niter < s.maxIter)) &&
       ((decide (s.maxEval = 0) || decide (s.neval < s.maxEval)) &&
        (decide (s.minStep = 0) || decide (meshStep > s.minStep))))
    (s, more)

end Optim

section SolverClaims

open Optim

/-- C9: `Solver.Next` returns `more = true` iff the method's iteration
produced no error and every active stop predicate allows continuation
(each predicate evaluated on the counters as updated by this call); a
`maxIter` / `maxEval` / `maxNoImprove` of zero means unbounded, the
`minStep` predicate compares `minStep` against the mesh's current step,
and — second conjunct — when `minStep` is negative (and the mesh step is
nonnegative, the mesh invariant) the minimum-step stop is disabled: the
outcome is as if only the other predicates were active. -/
theorem solver_next_continue (s : Solver) (best : Point) (n : ℤ)
    (err : Option GoErr) (meshStep : ℚ) :
    ((Solver.Next s (best, n, err) meshStep).2 = true ↔
      err = none ∧
      (s.maxNoImprove = 0 ∨
        (Solver.Next s (best, n, err) meshStep).1.noimprove < s.maxNoImprove) ∧
      (s.maxIter = 0 ∨
        (Solver.Next s (best, n, err) meshStep).1.niter < s.maxIter) ∧
      (s.maxEval = 0 ∨
        (Solver.Next s (best, n, err) meshStep).1.neval < s.maxEval) ∧
      (s.minStep = 0 ∨ meshStep > s.minStep)) ∧
    (s.minStep < 0 → 0 ≤ meshStep →
      ((Solver.Next s (best, n, err) meshStep).2 = true ↔
        err = none ∧
        (s.maxNoImprove = 0 ∨
          (Solver.Next s (best, n, err) meshStep).1.noimprove < s.maxNoImprove) ∧
        (s.maxIter = 0 ∨
          (Solver.Next s (best, n, err) meshStep).1.niter < s.maxIter) ∧
        (s.maxEval = 0 ∨
          (Solver.Next s (best, n, err) meshStep).1.neval < s.maxEval))) := by
  constructor
  · cases err with
    | none =>
        simp only [Solver.Next]
        split <;> split <;>
          simp_all [Bool.and_eq_true, Bool.or_eq_true, decide_eq_true_eq]
    | some e =>
        simp only [Solver.Next]
        split <;> split <;> simp_all
  · intro hneg hstep
    have hne : ¬ (s.minStep = 0) := by intro h; rw [h] at hneg; exact lt_irrefl 0 hneg
    have hgt : meshStep > s.minStep := lt_of_lt_of_le hneg hstep
    cases err with
    | none =>
        simp only [Solver.Next]
        split <;> split <;>
          simp_all [Bool.and_eq_true, Bool.or_eq_true, decide_eq_true_eq]
    | some e =>
        simp only [Solver.Next]
        split <;> split <;> simp_all

/-- C9 witness: a concrete call with no error, all `max` limits zero
(unbounded) and a negative `minStep = -1` at mesh step `0`: the negative
`minStep` hypotheses of the theorem's second conjunct are discharged and
`Next` continues. -/
theorem solver_next_continue_witness :
    (Solver.Next
      { maxIter := 0, maxEval := 0, maxNoImprove := 0, minStep := -1,
        neval := 0, niter := 0, noimprove := 0,
        best := ⟨[], (0 : ℚ)⟩, err := none }
      (⟨[], (0 : ℚ)⟩, 1, none) 0).2 = true :=
  ((solver_next_continue
      { maxIter := 0, maxEval := 0, maxNoImprove := 0, minStep := -1,
        neval := 0, niter := 0, noimprove := 0,
        best := ⟨[], (0 : ℚ)⟩, err := none }
      ⟨[], (0 : ℚ)⟩ 1 none 0).2 (by norm_num) (by norm_num)).mpr
    ⟨rfl, Or.inl rfl, Or.inl rfl, Or.inl rfl⟩

end SolverClaims

namespace Mesh

open Optim

/-- Truncation toward zero of a rational, as computed by Go's
`math.Modf` integer part. -/
def ratTrunc (q : ℚ) : ℤ := if 0 ≤ q then ⌊q⌋ else ⌈q⌉

/-- `mesh.Infinite` (src/mesh/project.go, src/mesh/mesh.go) in the
`Basis == nil` configuration (identity basis), which is the configuration
every claim exercises.  `origin = []` stands for Go's `nil` origin, which
`Nearest` replaces with the zero vector of the point's length. -/
structure Infinite where
  origin : List ℚ
  step : ℚ
deriving DecidableEq, Repr

namespace Infinite

/-- One coordinate of the rounding loop of `Infinite.Nearest`
(src/mesh/mesh.go lines 166-174):

    n, rem := math.Modf(rotv.At(i, 0) / sm.Step)
    if rem/sm.Step > 0.5 { n++ }
    nearest.Set(i, 0, float64(n)*sm.Step)

Here `q` is the already-translated coordinate `p[i] - origin[i]`. -/
def nearestCoord (step q : ℚ) : ℚ :=
  let t := q / step
  let n := ratTrunc t
  let rem := t - (n : ℚ)
  let n' := if rem / step > 1/2 then n + 1 else n
  (n' : ℚ) * step

/-- `mesh.Infinite.Nearest` (src/mesh/mesh.go lines 140-183) with
`Basis == nil`: the `step == 0` branch returns the point unchanged;
otherwise each coordinate is translated by the origin (a `nil`/empty origin
acts as the zero vector), rounded by `nearestCoord`, and translated back.
The Go code returns the rounded coordinates in mesh coordinates and
multiplies by the identity basis, i.e. does NOT add the origin back. -/
def Nearest (m : Infinite) (p : List ℚ) : List ℚ :=
  if m.step = 0 then p
  else
    let origin := if m.origin = [] then List.replicate p.length (0 : ℚ) else m.origin
    (p.zip origin).map fun qo => nearestCoord m.step (qo.1 - qo.2)

end Infinite

/-- The coordinate-wise clamp performed by `mesh.Bounded.Nearest`
(src/mesh/mesh.go lines 209-217) before delegating to the inner mesh:

    pdup[i] = math.Max(m.Lower[i], pdup[i])
    pdup[i] = math.Min(m.Upper[i], pdup[i])
-/
def clampTo (lower upper p : List ℚ) : List ℚ :=
  (List.range p.length).map fun i =>
    min (upper.getD i 0) (max (lower.getD i 0) (p.getD i 0))

/-- `mesh.Bounded.Nearest` (src/mesh/mesh.go lines 209-217): clamp every
coordinate into `[Lower i, Upper i]`, then hand the clamped point to the
inner mesh (`m.core.Nearest`), which is an interface value and is therefore
a function parameter here. -/
def Bounded.Nearest (lower upper : List ℚ) (core : List ℚ → List ℚ)
    (p : List ℚ) : List ℚ :=
  core (clampTo lower upper p)

/-- The rounding rule exactly as the specification's sentence for claim C1
words it: each coordinate of `q = p - origin` rounds to
`floor(q/step) * step`, incremented by one `step` iff the positive
fractional remainder of `q/step` exceeds `0.5`, ties rounding up.
(Spec-side definition, for comparison with `Infinite.nearestCoord`.) -/
def specNearestCoord (step q : ℚ) : ℚ :=
  let t := q / step
  let n := ⌊t⌋
  let rem := t - (n : ℚ)
  (if rem ≥ 1/2 then (n + 1 : ℚ) else (n : ℚ)) * step

/-- Evaluating one coordinate of `clampTo` within range. -/
theorem clampTo_getD (lower upper p : List ℚ) (i : ℕ) (hi : i < p.length) :
    (clampTo lower upper p).getD i 0 =
      min (upper.getD i 0) (max (lower.getD i 0) (p.getD i 0)) := by
  unfold clampTo
  rw [List.getD_eq_getElem?_getD, List.getElem?_map]
  simp [List.getElem?_range, hi]

end Mesh

section MeshClaims

open Optim Mesh

/-- C1 (code_bug): at the failing input `p = [3/2]` on the infinite mesh
with `step = 2` and nil origin, the code's rounding
(`Infinite.Nearest`, which increments only when `rem/step > 0.5` where
`rem` is already the fractional part of `q/step`, and truncates toward
zero) returns `[0]`, while the claim's rounding rule (`specNearestCoord`:
floor plus increment when the fractional remainder of `q/step` is at least
`0.5`) yields `2` — which is also the grid point nearest to `3/2` promised
by the function's own doc comment. -/
theorem infinite_nearest_code_bug :
    Infinite.Nearest ⟨[], 2⟩ [3/2] = [0] ∧
      specNearestCoord 2 (3/2) = 2 ∧
      ((2 : ℚ) - 3/2) < ((3/2 : ℚ) - 0) := by
  refine ⟨?_, ?_, by norm_num⟩
  · simp [Infinite.Nearest, Infinite.nearestCoord, ratTrunc]
    norm_num
  · norm_num [specNearestCoord]

/-- C6 (counterexample): the bounded mesh over the unit-step infinite mesh
with bounds `[3/5, 4/5]` maps `9/10` to `1`, which lies outside the upper
bound `4/5` — the claim that every output coordinate of `Bounded.Nearest`
lies within `[l_i, u_i]` is false on the code, because the clamp happens
before the inner mesh's rounding. -/
theorem bounded_nearest_escapes_bounds :
    Bounded.Nearest [3/5] [4/5] (Infinite.Nearest ⟨[0], 1⟩) [9/10] = [1] ∧
      ¬ ((1 : ℚ) ≤ 4/5) := by
  constructor
  · simp [Bounded.Nearest, clampTo, Infinite.Nearest, Infinite.nearestCoord,
      ratTrunc, List.range_succ]
    norm_num
  · norm_num

/-- C6 (amended): `Bounded.Nearest` clamps each input coordinate into
`[l_i, u_i]` and hands the clamped point to the inner mesh; it is the
clamped intermediate point — not necessarily the final result, which the
inner rounding may move back outside — whose coordinates all lie within
the bounds (whenever `l_i ≤ u_i`). -/
theorem bounded_nearest_clamps (lower upper : List ℚ)
    (core : List ℚ → List ℚ) (p : List ℚ)
    (hlu : ∀ i < p.length, lower.getD i 0 ≤ upper.getD i 0) :
    Bounded.Nearest lower upper core p = core (clampTo lower upper p) ∧
      ∀ i < p.length,
        lower.getD i 0 ≤ (clampTo lower upper p).getD i 0 ∧
          (clampTo lower upper p).getD i 0 ≤ upper.getD i 0 := by
  refine ⟨rfl, fun i hi => ?_⟩
  rw [clampTo_getD lower upper p i hi]
  constructor
  · exact le_min (hlu i hi) (le_max_left _ _)
  · exact min_le_left _ _

/-- C6 witness: the amended theorem applied at the concrete bounded mesh of
the counterexample (`l = [3/5]`, `u = [4/5]`, inner unit-step infinite
mesh, `p = [9/10]`). -/
theorem bounded_nearest_clamps_witness :
    Bounded.Nearest [3/5] [4/5] (Infinite.Nearest ⟨[0], 1⟩) [9/10] =
        Infinite.Nearest ⟨[0], 1⟩ (clampTo [3/5] [4/5] [9/10]) ∧
      ∀ i < ([9/10] : List ℚ).length,
        ([3/5] : List ℚ).getD i 0 ≤ (clampTo [3/5] [4/5] [9/10]).getD i 0 ∧
          (clampTo [3/5] [4/5] [9/10]).getD i 0 ≤ ([4/5] : List ℚ).getD i 0 :=
  bounded_nearest_clamps [3/5] [4/5] (Infinite.Nearest ⟨[0], 1⟩) [9/10]
    (by rintro (_|i) hi
        · norm_num
        · simp at hi)

end MeshClaims

namespace Swarm

open Optim

/-- `swarm.Particle` (src/swarm/swarm.go lines 63-68): an id, the embedded
current `optim.Point`, a velocity vector, and the personal best point. -/
structure Particle where
  id : ℤ
  point : Point
  vel : List ℚ
  best : Point
deriving DecidableEq, Repr

/-- A default particle used only as the `getD` fallback for list indexing
(Go panics on out-of-range access; theorems stay inside the lists). -/
def dflt : Particle := ⟨0, ⟨[], ⊤⟩, [], ⟨[], ⊤⟩⟩

/-- Go's `math.Copysign(x, s)`: the magnitude of `x` with the sign of `s`
(the sign of `0` counts as positive; IEEE `-0` is outside the model). -/
def copysign (x s : ℚ) : ℚ := if s < 0 then -|x| else |x|

/-- `swarm.Particle.Move` (src/swarm/swarm.go lines 70-91).  The
process-wide random source `optim.Rand` is embedded as the stream `rng`
with cursor `k`: the j-th call to `optim.RandFloat()` after the cursor
returns `rng (k + j)`.  The Go loop draws `r1` then `r2` afresh inside the
per-dimension loop, so dimension `i` consumes draws `k + 2*i` and
`k + 2*i + 1`.  Velocities are clamped through `math.Copysign` when their
magnitude exceeds `vmax[i]`; the new position adds the new velocity, and
the particle's point becomes `NewPoint(pos, +Inf)`.  (`vmax` is kept
rational: the `+Inf` caps installed by `NewIterator`'s default never
clamp and are not modelled.)  Returns the moved particle and the advanced
cursor. -/
def Particle.Move (p : Particle) (gbest : Point) (vmax : List ℚ)
    (inertia social cognition : ℚ) (rng : ℕ → ℚ) (k : ℕ) : Particle × ℕ :=
  let newVel := (List.range p.vel.length).map fun i =>
    let currv := p.vel.getD i 0
    let r1 := rng (k + 2*i)
    let r2 := rng (k + 2*i + 1)
    let v := inertia * currv +
      cognition * r1 * (p.best.pos.getD i 0 - p.point.pos.getD i 0) +
      social * r2 * (gbest.pos.getD i 0 - p.point.pos.getD i 0)
    if |v| > vmax.getD i 0 then copysign (vmax.getD i 0) v else v
  let pos := (List.range p.point.pos.length).map fun i =>
    p.point.pos.getD i 0 + newVel.getD i 0
  ({ p with vel := newVel, point := ⟨pos, ⊤⟩ }, k + 2 * p.vel.length)

/-- `swarm.Particle.Update` (src/swarm/swarm.go lines 107-114): adopt the
evaluated value (never the possibly-projected position) and replace the
personal best with the evaluated point when it improves. -/
def Particle.Update (p : Particle) (newp : Point) : Particle :=
  let p := { p with point := { p.point with val := newp.val } }
  if p.point.val < p.best.val then { p with best := newp } else p

/-- `swarm.Particle.Kill` (src/swarm/swarm.go lines 93-105). -/
def Particle.Kill (p : Particle) (gbest : Point) (xtol vtol : ℚ) : Bool :=
  if xtol = 0 ∨ vtol = 0 then false
  else
    let totv := (p.vel.map fun v => v * v).sum
    let diffx := ((List.range p.vel.length).map fun i =>
      (p.point.pos.getD i 0 - gbest.pos.getD i 0) ^ 2).sum
    decide (totv < vtol * vtol) && decide (diffx < xtol * xtol)

/-- `swarm.Population.Best` (src/swarm/swarm.go lines 153-167): the first
particle with the strictly smallest personal-best value (`nil` on an
empty population). -/
def Population.Best : List Particle → Option Particle
  | [] => none
  | p :: rest =>
      some (rest.foldl (fun best q => if q.best.val < best.best.val then q else best) p)

/-- The mutable state of `swarm.Iterator` (src/swarm/swarm.go
lines 241-260).  The `Evaler` interface field becomes an argument of
`Iterate`; the optional `*sql.DB` sink is `nil` (its writes do not touch
this state). -/
structure Iterator where
  xtol : ℚ
  vtol : ℚ
  pop : List Particle
  cognition : ℚ
  social : ℚ
  inertiaFn : ℕ → ℚ
  vmax : List ℚ
  count : ℕ
  best : Point

/-- `swarm.Iterator.AddPoint` (src/swarm/swarm.go lines 290-294). -/
def Iterator.AddPoint (it : Iterator) (p : Point) : Iterator :=
  if p.val < it.best.val then { it with best := p } else it

/-- One in-place deletion `it.Pop = append(it.Pop[:i], it.Pop[i+1:]...)`
as seen through the backing array: elements `i+1 .. curLen-1` shift down
one slot, everything else (including the stale tail beyond `curLen`) is
unchanged. -/
def shiftDelete (arr : List Particle) (i curLen : ℕ) : List Particle :=
  (List.range arr.length).map fun j =>
    if i ≤ j ∧ j + 1 < curLen then arr.getD (j + 1) dflt else arr.getD j dflt

/-- The kill loop of `swarm.Iterator.Iterate` (src/swarm/swarm.go
lines 330-334).  Go ranges over the slice header captured at loop entry
(length `arr.length`) while `it.Pop` shrinks in place, so the model keeps
the backing array and the current length: each index `i` of the original
header is visited once, reading through the (possibly shifted) array.
When a kill fires with `i + 1 > curLen` the Go slice expression
`it.Pop[i+1:]` panics; the model leaves the state unchanged there. -/
def killLoop (gbest : Point) (xtol vtol : ℚ) (pop : List Particle) :
    List Particle × ℕ :=
  (List.range pop.length).foldl
    (fun st i =>
      let p := st.1.getD i dflt
      if p.Kill gbest xtol vtol then
        if i + 1 ≤ st.2 then (shiftDelete st.1 i st.2, st.2 - 1) else st
      else st)
    (pop, pop.length)

/-- `optim.Nearest(p, m)`, called by `swarm.Iterator.Iterate`.  Modelled
from the spec: the helper's source is not under `src/` (only its callers
are); §4.5 step 1 says a supplied mesh projects each position via
`mesh.nearest` before evaluation, without touching the stored position, so
the point's position is replaced by its mesh projection. -/
def meshProject (nearest : List ℚ → List ℚ) (p : Point) : Point :=
  ⟨nearest p.pos, p.val⟩

/-- `swarm.Iterator.Iterate` (src/swarm/swarm.go lines 296-337).  The
configured evaluator is the function argument `evaler` (any `Evaler`
implementation); the mesh, when supplied, is its `Nearest` projection;
`rng`/`k` is the random stream with its cursor, threaded sequentially
through the per-particle moves.  Returns `(best, neval, err)`, the new
iterator state and the advanced cursor. -/
def Iterator.Iterate (it : Iterator)
    (evaler : Objective → List Point → List Point × ℕ × Option GoErr)
    (obj : Objective) (mesh : Option (List ℚ → List ℚ))
    (rng : ℕ → ℚ) (k : ℕ) :
    (Point × ℕ × Option GoErr) × Iterator × ℕ :=
  let it := { it with count := it.count + 1 }
  let points := it.pop.map (·.point)
  let points := match mesh with
    | none => points
    | some nearest => points.map (meshProject nearest)
  let res := evaler obj points
  let results := res.1
  let n := res.2.1
  let err := res.2.2
  if err.isSome then ((⟨[], ⊤⟩, n, err), it, k)
  else
    let pop := (List.range it.pop.length).map fun i =>
      match results.get? i with
      | some r => (it.pop.getD i dflt).Update r
      | none => it.pop.getD i dflt
    let it := { it with pop := pop }
    let moved := it.pop.foldl
      (fun (acc : List Particle × ℕ) p =>
        let mv := p.Move it.best it.vmax (it.inertiaFn it.count)
          it.social it.cognition rng acc.2
        (acc.1 ++ [mv.1], mv.2))
      ([], k)
    let it := { it with pop := moved.1 }
    let it := match Population.Best it.pop with
      | some pb => if pb.best.val < it.best.val then { it with best := pb.best } else it
      | none => it
    let killed := killLoop it.best it.xtol it.vtol it.pop
    let it := { it with pop := killed.1.take killed.2 }
    ((it.best, n, none), it, moved.2)

end Swarm

namespace Swarm

open Optim

/-- Indexing a map over `List.range`. -/
theorem getD_map_range {α : Type} (f : ℕ → α) (n i : ℕ) (d : α) (hi : i < n) :
    ((List.range n).map f).getD i d = f i := by
  rw [List.getD_eq_getElem?_getD, List.getElem?_map]
  simp [List.getElem?_range, hi]

/-- `math.Copysign` preserves magnitude. -/
theorem abs_copysign (x s : ℚ) : |copysign x s| = |x| := by
  unfold copysign
  split <;> simp [abs_abs]

end Swarm

section SwarmMoveClaim

open Optim Swarm

/-- C2: one particle move.  For every dimension `i` of the velocity, the
new velocity is
`w*v_i + c1*r1*(personal_best_i - pos_i) + c2*r2*(incumbent_i - pos_i)`
(with `c1` the cognition factor paired with the personal best and `c2`
the social factor paired with the incumbent `gbest`), where `r1`/`r2` are
the two fresh stream draws `rng (k + 2*i)` and `rng (k + 2*i + 1)`
consumed by dimension `i` alone (fresh per dimension, not per particle);
the result is clamped so that `|v_i| ≤ vmax_i` afterwards; and the new
position is the old position plus the new velocity. -/
theorem particle_move_spec (p : Particle) (gbest : Point) (vmax : List ℚ)
    (inertia social cognition : ℚ) (rng : ℕ → ℚ) (k i : ℕ)
    (hi : i < p.vel.length)
    (hpos : p.point.pos.length = p.vel.length)
    (hv : 0 ≤ vmax.getD i 0) :
    (p.Move gbest vmax inertia social cognition rng k).1.vel.getD i 0 =
      (if |inertia * p.vel.getD i 0 +
            cognition * rng (k + 2*i) *
              (p.best.pos.getD i 0 - p.point.pos.getD i 0) +
            social * rng (k + 2*i + 1) *
              (gbest.pos.getD i 0 - p.point.pos.getD i 0)| > vmax.getD i 0
       then copysign (vmax.getD i 0)
              (inertia * p.vel.getD i 0 +
               cognition * rng (k + 2*i) *
                 (p.best.pos.getD i 0 - p.point.pos.getD i 0) +
               social * rng (k + 2*i + 1) *
                 (gbest.pos.getD i 0 - p.point.pos.getD i 0))
       else inertia * p.vel.getD i 0 +
            cognition * rng (k + 2*i) *
              (p.best.pos.getD i 0 - p.point.pos.getD i 0) +
            social * rng (k + 2*i + 1) *
              (gbest.pos.getD i 0 - p.point.pos.getD i 0)) ∧
    |(p.Move gbest vmax inertia social cognition rng k).1.vel.getD i 0| ≤
      vmax.getD i 0 ∧
    (p.Move gbest vmax inertia social cognition rng k).1.point.pos.getD i 0 =
      p.point.pos.getD i 0 +
        (p.Move gbest vmax inertia social cognition rng k).1.vel.getD i 0 := by
  have hvel : (p.Move gbest vmax inertia social cognition rng k).1.vel.getD i 0 =
      (if |inertia * p.vel.getD i 0 +
            cognition * rng (k + 2*i) *
              (p.best.pos.getD i 0 - p.point.pos.getD i 0) +
            social * rng (k + 2*i + 1) *
              (gbest.pos.getD i 0 - p.point.pos.getD i 0)| > vmax.getD i 0
       then copysign (vmax.getD i 0)
              (inertia * p.vel.getD i 0 +
               cognition * rng (k + 2*i) *
                 (p.best.pos.getD i 0 - p.point.pos.getD i 0) +
               social * rng (k + 2*i + 1) *
                 (gbest.pos.getD i 0 - p.point.pos.getD i 0))
       else inertia * p.vel.getD i 0 +
            cognition * rng (k + 2*i) *
              (p.best.pos.getD i 0 - p.point.pos.getD i 0) +
            social * rng (k + 2*i + 1) *
              (gbest.pos.getD i 0 - p.point.pos.getD i 0)) := by
    simp only [Particle.Move]
    rw [getD_map_range _ _ _ _ hi]
  refine ⟨hvel, ?_, ?_⟩
  · rw [hvel]
    split
    · rw [abs_copysign, abs_of_nonneg hv]
    · next h => exact le_of_not_lt h
  · simp only [Particle.Move]
    rw [getD_map_range _ _ _ _ (hpos ▸ hi)]

/-- C2 witness: the theorem applied to a concrete one-dimensional
particle (`pos = [0]`, `vel = [1]`, personal best at `[2]`, incumbent at
`[4]`, `vmax = [10]`, all factors `1`, every stream draw `1/2`): the new
velocity is `4` (unclamped by `10`) and the new position is `4`. -/
theorem particle_move_spec_witness :
    (Particle.Move ⟨0, ⟨[0], (5 : ℚ)⟩, [1], ⟨[2], (3 : ℚ)⟩⟩ ⟨[4], (1 : ℚ)⟩
        [10] 1 1 1 (fun _ => 1/2) 0).1.vel.getD 0 0 =
      (if |(1 : ℚ) * [(1 : ℚ)].getD 0 0 +
            1 * (1/2 : ℚ) * ([(2 : ℚ)].getD 0 0 - [(0 : ℚ)].getD 0 0) +
            1 * (1/2 : ℚ) * ([(4 : ℚ)].getD 0 0 - [(0 : ℚ)].getD 0 0)| >
              [(10 : ℚ)].getD 0 0
       then copysign ([(10 : ℚ)].getD 0 0)
              ((1 : ℚ) * [(1 : ℚ)].getD 0 0 +
               1 * (1/2 : ℚ) * ([(2 : ℚ)].getD 0 0 - [(0 : ℚ)].getD 0 0) +
               1 * (1/2 : ℚ) * ([(4 : ℚ)].getD 0 0 - [(0 : ℚ)].getD 0 0))
       else (1 : ℚ) * [(1 : ℚ)].getD 0 0 +
            1 * (1/2 : ℚ) * ([(2 : ℚ)].getD 0 0 - [(0 : ℚ)].getD 0 0) +
            1 * (1/2 : ℚ) * ([(4 : ℚ)].getD 0 0 - [(0 : ℚ)].getD 0 0)) ∧
    |(Particle.Move ⟨0, ⟨[0], (5 : ℚ)⟩, [1], ⟨[2], (3 : ℚ)⟩⟩ ⟨[4], (1 : ℚ)⟩
        [10] 1 1 1 (fun _ => 1/2) 0).1.vel.getD 0 0| ≤ [(10 : ℚ)].getD 0 0 ∧
    (Particle.Move ⟨0, ⟨[0], (5 : ℚ)⟩, [1], ⟨[2], (3 : ℚ)⟩⟩ ⟨[4], (1 : ℚ)⟩
        [10] 1 1 1 (fun _ => 1/2) 0).1.point.pos.getD 0 0 =
      [(0 : ℚ)].getD 0 0 +
        (Particle.Move ⟨0, ⟨[0], (5 : ℚ)⟩, [1], ⟨[2], (3 : ℚ)⟩⟩ ⟨[4], (1 : ℚ)⟩
            [10] 1 1 1 (fun _ => 1/2) 0).1.vel.getD 0 0 := by
  have h := particle_move_spec ⟨0, ⟨[0], (5 : ℚ)⟩, [1], ⟨[2], (3 : ℚ)⟩⟩
    ⟨[4], (1 : ℚ)⟩ [10] 1 1 1 (fun _ => 1/2) 0 0
    (by norm_num) (by norm_num) (by norm_num)
  simpa using h

end SwarmMoveClaim

section SwarmIncumbentClaim

open Optim Swarm

/-- C8: the swarm method's incumbent value never increases.  For every
call to `Iterate` — over every evaluator implementation, objective, mesh
projection and random stream — and for every call to `AddPoint`, the
incumbent (`it.best`) after the call is `≤` the incumbent before it: the
code replaces it only by a strictly smaller personal best
(`pbest.Best.Val < it.best.Val`) or a strictly smaller contributed point
(`p.Val < it.best.Val`). -/
theorem swarm_incumbent_monotone (it : Iterator)
    (evaler : Objective → List Point → List Point × ℕ × Option GoErr)
    (obj : Objective) (mesh : Option (List ℚ → List ℚ))
    (rng : ℕ → ℚ) (k : ℕ) (p : Point) :
    (it.Iterate evaler obj mesh rng k).2.1.best.val ≤ it.best.val ∧
      (it.AddPoint p).best.val ≤ it.best.val := by
  constructor
  · simp only [Iterator.Iterate]
    split
    · exact le_refl _
    · split
      · next pb heq =>
          split
          · next h => exact le_of_lt h
          · exact le_refl _
      · exact le_refl _
  · simp only [Iterator.AddPoint]
    split
    · next h => exact le_of_lt h
    · exact le_refl _

end SwarmIncumbentClaim

namespace Pattern

open Optim

/-- The mesh as seen through the `optim.Mesh` interface used by
`pattern.Method.Iterate` (`Step()`, `SetStep(s)`, `SetOrigin(o)`): the
`Infinite` implementation (src/mesh/project.go lines 262-264) stores the
step and origin directly, so the interface state is this record. -/
structure MeshState where
  origin : List ℚ
  step : ℚ
deriving DecidableEq, Repr

/-- The result quadruple `(success, best, neval, err)` returned by a
`Searcher.Search` or `Poller.Poll` call. -/
structure CallResult where
  success : Bool
  best : Point
  n : ℕ
  err : Option GoErr
deriving Repr

/-- The mutable fields of `pattern.Method` that `Iterate` touches
(src/pattern/pattern.go lines 71-81).  `nsuccessGrow` is the Go `int`
field `NsuccessGrow` (`-1` means "never grow", compared with `==`).  The
`Searcher`, `Poller`, evaluator and `*sql.DB` fields become oracle
arguments of `Iterate`. -/
structure Method where
  curr : Point
  nsuccessGrow : ℤ
  nsuccess : ℤ
  count : ℕ
deriving Repr

/-- `pattern.Method.Iterate` (src/pattern/pattern.go lines 107-161).
The `Searcher.Search` call is embedded as the oracle `search`, a function
of the mesh state handed to it (for a discrete search the inner method
receives the live mesh and may mutate it, so `search` also returns the
mesh state at its return; a continuous search receives `nil` and the
returned mesh state is the input one).  The `Poller.Poll` call is the
oracle `poll`, applied to the mesh after it has been re-centered on the
incumbent — exactly the state Poll observes.  On poll success the success
counter increments and, on reaching `NsuccessGrow`, the step doubles and
the counter resets, then the mesh is re-centered on the new best; on poll
failure the counter resets, the step halves, and `ZeroStepErr` is
returned iff the halved step is zero. -/
def Method.Iterate (m : Method) (mesh : MeshState)
    (search : MeshState → CallResult × MeshState)
    (poll : MeshState → CallResult) :
    (Point × ℕ × Option GoErr) × Method × MeshState :=
  let m := { m with count := m.count + 1 }
  let searchRes := (search mesh).1
  let meshAfterSearch := (search mesh).2
  let n1 := searchRes.n
  if searchRes.err.isSome then
    ((searchRes.best, n1, searchRes.err), m, meshAfterSearch)
  else if searchRes.success then
    ((searchRes.best, n1, none), { m with curr := searchRes.best },
      meshAfterSearch)
  else
    let mesh1 : MeshState := { meshAfterSearch with origin := m.curr.pos }
    let pr := poll mesh1
    let n := n1 + pr.n
    if pr.err.isSome then
      ((m.curr, n, pr.err), m, mesh1)
    else if pr.success then
      let m := { m with curr := pr.best, nsuccess := m.nsuccess + 1 }
      if m.nsuccess = m.nsuccessGrow then
        ((pr.best, n, none), { m with nsuccess := 0 },
          { mesh1 with step := mesh1.step * 2, origin := pr.best.pos })
      else
        ((pr.best, n, none), m, { mesh1 with origin := pr.best.pos })
    else
      let m := { m with nsuccess := 0 }
      let mesh2 := { mesh1 with step := mesh1.step * (1/2) }
      let err := if mesh2.step = 0 then some GoErr.zeroStep else none
      ((m.curr, n, err), m, mesh2)

end Pattern

section PatternIterateClaim

open Optim Pattern

/-- C3: in every pattern-search iteration that reaches the poll (search
returned no error and no success) and whose poll returns no error: on a
successful poll the successive-success counter is incremented, and when
it reaches `NsuccessGrow` the mesh step is doubled and the counter reset
to zero; on a failed poll the counter is reset and the mesh step halved,
and the iteration returns `ZeroStepErr` exactly when the halved step
equals zero. -/
theorem pattern_iterate_grow_shrink (m : Method) (mesh : MeshState)
    (search : MeshState → CallResult × MeshState)
    (poll : MeshState → CallResult)
    (hsE : (search mesh).1.err = none) (hsS : (search mesh).1.success = false)
    (hpE : (poll { (search mesh).2 with origin := m.curr.pos }).err = none) :
    ((poll { (search mesh).2 with origin := m.curr.pos }).success = true →
      (m.Iterate mesh search poll).2.1.nsuccess =
        (if m.nsuccess + 1 = m.nsuccessGrow then 0 else m.nsuccess + 1) ∧
      (m.Iterate mesh search poll).2.2.step =
        (if m.nsuccess + 1 = m.nsuccessGrow then (search mesh).2.step * 2
         else (search mesh).2.step)) ∧
    ((poll { (search mesh).2 with origin := m.curr.pos }).success = false →
      (m.Iterate mesh search poll).2.1.nsuccess = 0 ∧
      (m.Iterate mesh search poll).2.2.step = (search mesh).2.step * (1/2) ∧
      ((m.Iterate mesh search poll).1.2.2 = some GoErr.zeroStep ↔
        (search mesh).2.step * (1/2) = 0)) := by
  constructor
  · intro hps
    simp only [Method.Iterate, hsE, hsS, hpE, hps]
    by_cases hg : m.nsuccess + 1 = m.nsuccessGrow <;> simp [hg]
  · intro hps
    simp only [Method.Iterate, hsE, hsS, hpE, hps]
    by_cases hz : (search mesh).2.step * (1/2) = 0 <;> simp [hz]

/-- C3 witness: a concrete iteration (counter at `1`, threshold `2`, mesh
step `4`) whose search fails and whose poll succeeds: the counter reaches
the threshold, resets to `0`, and the step doubles to `8`. -/
theorem pattern_iterate_grow_shrink_witness :
    (true = true →
      (Method.Iterate ⟨⟨[0], (5 : ℚ)⟩, 2, 1, 0⟩ ⟨[0], 4⟩
          (fun me => (⟨false, ⟨[0], (5 : ℚ)⟩, 0, none⟩, me))
          (fun _ => ⟨true, ⟨[1], (3 : ℚ)⟩, 3, none⟩)).2.1.nsuccess =
        (if (1 : ℤ) + 1 = 2 then 0 else 1 + 1) ∧
      (Method.Iterate ⟨⟨[0], (5 : ℚ)⟩, 2, 1, 0⟩ ⟨[0], 4⟩
          (fun me => (⟨false, ⟨[0], (5 : ℚ)⟩, 0, none⟩, me))
          (fun _ => ⟨true, ⟨[1], (3 : ℚ)⟩, 3, none⟩)).2.2.step =
        (if (1 : ℤ) + 1 = 2 then (4 : ℚ) * 2 else 4)) ∧
    (true = false →
      (Method.Iterate ⟨⟨[0], (5 : ℚ)⟩, 2, 1, 0⟩ ⟨[0], 4⟩
          (fun me => (⟨false, ⟨[0], (5 : ℚ)⟩, 0, none⟩, me))
          (fun _ => ⟨true, ⟨[1], (3 : ℚ)⟩, 3, none⟩)).2.1.nsuccess = 0 ∧
      (Method.Iterate ⟨⟨[0], (5 : ℚ)⟩, 2, 1, 0⟩ ⟨[0], 4⟩
          (fun me => (⟨false, ⟨[0], (5 : ℚ)⟩, 0, none⟩, me))
          (fun _ => ⟨true, ⟨[1], (3 : ℚ)⟩, 3, none⟩)).2.2.step =
        (4 : ℚ) * (1/2) ∧
      ((Method.Iterate ⟨⟨[0], (5 : ℚ)⟩, 2, 1, 0⟩ ⟨[0], 4⟩
          (fun me => (⟨false, ⟨[0], (5 : ℚ)⟩, 0, none⟩, me))
          (fun _ => ⟨true, ⟨[1], (3 : ℚ)⟩, 3, none⟩)).1.2.2 =
          some GoErr.zeroStep ↔ (4 : ℚ) * (1/2) = 0)) :=
  pattern_iterate_grow_shrink ⟨⟨[0], (5 : ℚ)⟩, 2, 1, 0⟩ ⟨[0], 4⟩
    (fun me => (⟨false, ⟨[0], (5 : ℚ)⟩, 0, none⟩, me))
    (fun _ => ⟨true, ⟨[1], (3 : ℚ)⟩, 3, none⟩) rfl rfl rfl

end PatternIterateClaim

namespace Pattern

open Optim Mesh

/-- Squared Euclidean distance between two points' positions, looping over
the first point's dimensions as `optim.L2Dist` (src/optim.go
lines 343-350) does.  The Go code takes the square root and compares with
`SkipEps`; for a nonnegative threshold `dist > eps ↔ dist² > eps²`, and
the model compares squares to stay inside `ℚ`. -/
def l2distSq (p1 p2 : Point) : ℚ :=
  ((List.range p1.pos.length).map fun i =>
    (p1.pos.getD i 0 - p2.pos.getD i 0) ^ 2).sum

/-- A kept direction with the objective value it last yielded
(`pattern.direc`, src/pattern/pattern.go lines 251-254). -/
structure Direc where
  dir : List ℤ
  val : Val
deriving DecidableEq, Repr

/-- `pattern.direcbetween` (src/pattern/pattern.go lines 513-520):
`d[i] = int((to.Pos[i] - x0) / step)` — Go's `int()` truncates toward
zero. -/
def direcbetween (frm tgt : Point) (step : ℚ) : List ℤ :=
  (List.range frm.pos.length).map fun i =>
    ratTrunc ((tgt.pos.getD i 0 - frm.pos.getD i 0) / step)

/-- `pattern.pointFromDirec` (src/pattern/pattern.go lines 414-422):
`pos[i] = x0 + direc[i]*step`, projected through `m.Nearest`, with value
`+Inf`. -/
def pointFromDirec (frm : Point) (direc : List ℤ) (step : ℚ)
    (nearest : List ℚ → List ℚ) : Point :=
  ⟨nearest ((List.range frm.pos.length).map fun i =>
      frm.pos.getD i 0 + (direc.getD i 0 : ℚ) * step), ⊤⟩

/-- `pattern.genPollPoints` (src/pattern/pattern.go lines 404-412) with
the span function's (random) output supplied as `dirs`. -/
def genPollPoints (frm : Point) (dirs : List (List ℤ)) (step : ℚ)
    (nearest : List ℚ → List ℚ) : List Point :=
  dirs.map fun d => pointFromDirec frm d step nearest

/-- Insertion into a list sorted by ascending direction value. -/
def insertByVal (d : Direc) : List Direc → List Direc
  | [] => [d]
  | e :: rest => if d.val < e.val then d :: e :: rest else e :: insertByVal d rest

/-- `sort.Sort(byval(cp.keepdirecs))` (src/pattern/pattern.go line 341):
sort ascending by last observed value.  Go's `sort.Sort` promises only
sortedness under `Less` (it is unstable); insertion sort realizes one
admissible outcome. -/
def sortByVal (l : List Direc) : List Direc := l.foldr insertByVal []

/-- The state retained by `pattern.Poller` across polls
(src/pattern/pattern.go lines 233-247).  `prevhash` is the hash of the
previous poll center — `none` models the zero value before any poll
(no point hashes to it); `nkeep` is the Go `int` field `Nkeep`. -/
structure PollerState where
  nkeep : ℤ
  skipEps : ℚ
  keepdirecs : List Direc
  points : List Point
  prevhash : Option (List ℚ)
  prevstep : ℚ

/-- `pattern.objStopper.Objective` (src/pattern/pattern.go
lines 394-402): forward the wrapped objective; on a computed value
strictly below `best`, return it with the `FoundBetterErr` signal. -/
def objStopper (obj : Objective) (best : Val) : Objective := fun v =>
  let r := obj v
  match r.2 with
  | some e => (r.1, some e)
  | none => if r.1 < best then (r.1, some GoErr.foundBetter) else (r.1, none)

/-- The candidate batch assembled by `Poller.Poll` before dispatch
(src/pattern/pattern.go lines 272-318): span directions (the random
span outputs are the oracles `dirsNew` — the compass/`SpanFn` plus
`RandomN(ndim)` sets used when the center or step changed — and
`dirsRepeat` — the `RandomN(2*ndim)` set used otherwise), prefixed by the
kept directions, then filtered by the `SkipEps` distance test. -/
def Poller.pollPoints (cp : PollerState) (meshStep : ℚ)
    (nearest : List ℚ → List ℚ) (frm : Point)
    (dirsNew dirsRepeat : List (List ℤ)) : List Point :=
  let samePrev := cp.prevhash = some frm.pos ∧ cp.prevstep = meshStep
  let pollpoints :=
    if samePrev then genPollPoints frm dirsRepeat meshStep nearest
    else genPollPoints frm dirsNew meshStep nearest
  let prevgood := cp.keepdirecs.map fun d =>
    pointFromDirec frm d.dir meshStep nearest
  let pollpoints := prevgood ++ pollpoints
  if cp.skipEps = 0 then pollpoints
  else pollpoints.filter fun p =>
    if cp.skipEps < 0 then true else decide (l2distSq frm p > cp.skipEps ^ 2)

/-- `pattern.Poller.Poll` (src/pattern/pattern.go lines 269-351).  The
evaluator is the oracle `ev` (any `Evaler`); the mesh enters through its
step and `Nearest`.  The objective is wrapped with `objStopper` at the
incumbent's value; a `FoundBetterErr` from the evaluator is treated as a
normal return; any other error returns `(false, frm, n, err)`.  Points
better than `frm` contribute kept directions (sorted by value, truncated
to `Nkeep`; a negative `Nkeep` would panic in Go and truncates to zero
here), and the best strict improvement is returned with `success`. -/
def Poller.Poll (cp : PollerState) (obj : Objective)
    (ev : Objective → List Point → List Point × ℕ × Option GoErr)
    (meshStep : ℚ) (nearest : List ℚ → List ℚ) (frm : Point)
    (dirsNew dirsRepeat : List (List ℤ)) :
    (Bool × Point × ℕ × Option GoErr) × PollerState :=
  let best := frm
  let pts := Poller.pollPoints cp meshStep nearest frm dirsNew dirsRepeat
  let samePrev := cp.prevhash = some frm.pos ∧ cp.prevstep = meshStep
  let cp := if samePrev then cp else { cp with prevhash := some frm.pos }
  let cp := { cp with prevstep := meshStep, points := pts }
  let res := ev (objStopper obj frm.val) pts
  let results := res.1
  let n := res.2.1
  let err := res.2.2
  if err.isSome ∧ err ≠ some GoErr.foundBetter then
    ((false, best, n, err), cp)
  else
    let newdirs := (results.filter fun p => p.val < best.val).map fun p =>
      (⟨direcbetween frm p meshStep, p.val⟩ : Direc)
    let nextbest := results.foldl
      (fun nb p => if p.val < nb.val then p else nb) frm
    let cp := { cp with keepdirecs := sortByVal (cp.keepdirecs ++ newdirs) }
    let cp :=
      if (cp.keepdirecs.length : ℤ) > cp.nkeep then
        { cp with keepdirecs := cp.keepdirecs.take cp.nkeep.toNat }
      else cp
    if nextbest.val < frm.val then ((true, nextbest, n, none), cp)
    else ((false, frm, n, none), cp)

/-- The running minimum never exceeds its seed. -/
theorem foldl_min_le (l : List Point) (b : Point) :
    (l.foldl (fun nb p => if p.val < nb.val then p else nb) b).val ≤ b.val := by
  induction l generalizing b with
  | nil => exact le_refl _
  | cons p l ih =>
      simp only [List.foldl_cons]
      split
      · next h => exact le_trans (ih p) (le_of_lt h)
      · exact ih b

/-- If some element beats the seed, the running minimum strictly beats
the seed. -/
theorem foldl_min_lt (l : List Point) (b : Point)
    (hx : ∃ p ∈ l, p.val < b.val) :
    (l.foldl (fun nb p => if p.val < nb.val then p else nb) b).val < b.val := by
  induction l generalizing b with
  | nil => simp at hx
  | cons p l ih =>
      simp only [List.foldl_cons]
      by_cases hp : p.val < b.val
      · rw [if_pos hp]
        exact lt_of_le_of_lt (foldl_min_le l p) hp
      · rw [if_neg hp]
        rcases hx with ⟨q, hq, hlt⟩
        rcases List.mem_cons.mp hq with rfl | hq
        · exact absurd hlt hp
        · exact ih b ⟨q, hq, hlt⟩

end Pattern

section PollerClaims

open Optim Pattern

/-- C10: whenever `Poller.Poll` returns a non-nil error, that error is
never the internal `FoundBetterErr` signal, the reported success flag is
`false`, and the returned best point is exactly the `from` point that was
passed in (the evaluation count is whatever the evaluator reported and
may be non-zero). -/
theorem poller_poll_error (cp : PollerState) (obj : Objective)
    (ev : Objective → List Point → List Point × ℕ × Option GoErr)
    (meshStep : ℚ) (nearest : List ℚ → List ℚ) (frm : Point)
    (dirsNew dirsRepeat : List (List ℤ)) (e : GoErr)
    (he : (Poller.Poll cp obj ev meshStep nearest frm dirsNew
        dirsRepeat).1.2.2.2 = some e) :
    e ≠ GoErr.foundBetter ∧
    (Poller.Poll cp obj ev meshStep nearest frm dirsNew dirsRepeat).1.1 =
      false ∧
    (Poller.Poll cp obj ev meshStep nearest frm dirsNew dirsRepeat).1.2.1 =
      frm := by
  by_cases hc :
      ((ev (objStopper obj frm.val)
          (Poller.pollPoints cp meshStep nearest frm dirsNew
            dirsRepeat)).2.2).isSome = true ∧
        (ev (objStopper obj frm.val)
          (Poller.pollPoints cp meshStep nearest frm dirsNew
            dirsRepeat)).2.2 ≠ some GoErr.foundBetter
  · simp only [Poller.Poll, if_pos hc] at he
    refine ⟨fun h => hc.2 (h ▸ he), ?_, ?_⟩ <;>
      simp only [Poller.Poll, if_pos hc]
  · simp only [Poller.Poll, if_neg hc] at he
    split at he <;> simp at he

/-- C7: when `Poller.Poll` wraps the objective with the early-stop
wrapper (`objStopper`) at the incumbent's value and dispatches the
candidate batch, then — provided the evaluator came back clean or with
the `FoundBetterErr` signal — whenever some evaluated candidate's value
is strictly below the pre-poll incumbent's value, `Poll` returns
`success = true`, a best point whose value is strictly below the
incumbent's, and a nil error (the early-stop signal is not surfaced). -/
theorem poller_poll_earlystop (cp : PollerState) (obj : Objective)
    (ev : Objective → List Point → List Point × ℕ × Option GoErr)
    (meshStep : ℚ) (nearest : List ℚ → List ℚ) (frm : Point)
    (dirsNew dirsRepeat : List (List ℤ))
    (he : (ev (objStopper obj frm.val)
        (Poller.pollPoints cp meshStep nearest frm dirsNew
          dirsRepeat)).2.2 = none ∨
      (ev (objStopper obj frm.val)
        (Poller.pollPoints cp meshStep nearest frm dirsNew
          dirsRepeat)).2.2 = some GoErr.foundBetter)
    (hx : ∃ p ∈ (ev (objStopper obj frm.val)
        (Poller.pollPoints cp meshStep nearest frm dirsNew
          dirsRepeat)).1, p.val < frm.val) :
    (Poller.Poll cp obj ev meshStep nearest frm dirsNew dirsRepeat).1.1 =
      true ∧
    (Poller.Poll cp obj ev meshStep nearest frm dirsNew
        dirsRepeat).1.2.1.val < frm.val ∧
    (Poller.Poll cp obj ev meshStep nearest frm dirsNew
        dirsRepeat).1.2.2.2 = none := by
  have hc : ¬ (((ev (objStopper obj frm.val)
      (Poller.pollPoints cp meshStep nearest frm dirsNew
        dirsRepeat)).2.2).isSome = true ∧
      (ev (objStopper obj frm.val)
        (Poller.pollPoints cp meshStep nearest frm dirsNew
          dirsRepeat)).2.2 ≠ some GoErr.foundBetter) := by
    rcases he with h | h
    · rw [h]; simp
    · rw [h]; simp
  have hlt := foldl_min_lt
    (ev (objStopper obj frm.val)
      (Poller.pollPoints cp meshStep nearest frm dirsNew dirsRepeat)).1
    frm hx
  refine ⟨?_, ?_, ?_⟩
  · simp only [Poller.Poll, if_neg hc, if_pos hlt]
  · simp only [Poller.Poll, if_neg hc, if_pos hlt]
    exact hlt
  · simp only [Poller.Poll, if_neg hc, if_pos hlt]

/-- C10 witness: an evaluator that reports a user error with `7`
evaluations: `Poll` reports the error with `n = 7 ≠ 0`, no success, and
the incumbent as best. -/
theorem poller_poll_error_witness :
    (Poller.Poll ⟨1, 0, [], [], none, 0⟩ (fun _ => ((0 : ℚ), none))
        (fun _ _ => ([], 7, some (GoErr.user 0))) 1 id ⟨[0], (5 : ℚ)⟩
        [] []).1.2.2.1 = 7 ∧
    (GoErr.user 0 ≠ GoErr.foundBetter ∧
      (Poller.Poll ⟨1, 0, [], [], none, 0⟩ (fun _ => ((0 : ℚ), none))
        (fun _ _ => ([], 7, some (GoErr.user 0))) 1 id ⟨[0], (5 : ℚ)⟩
        [] []).1.1 = false ∧
      (Poller.Poll ⟨1, 0, [], [], none, 0⟩ (fun _ => ((0 : ℚ), none))
        (fun _ _ => ([], 7, some (GoErr.user 0))) 1 id ⟨[0], (5 : ℚ)⟩
        [] []).1.2.1 = ⟨[0], (5 : ℚ)⟩) :=
  ⟨rfl,
   poller_poll_error ⟨1, 0, [], [], none, 0⟩ (fun _ => ((0 : ℚ), none))
     (fun _ _ => ([], 7, some (GoErr.user 0))) 1 id ⟨[0], (5 : ℚ)⟩
     [] [] (GoErr.user 0) rfl⟩

/-- C7 witness: an evaluator that returns one candidate of value `3`
(strictly below the incumbent's `5`) together with the early-stop
signal: `Poll` succeeds with a strictly better point and no error. -/
theorem poller_poll_earlystop_witness :
    (Poller.Poll ⟨1, 0, [], [], none, 0⟩ (fun _ => ((0 : ℚ), none))
        (fun _ _ => ([⟨[1], (3 : ℚ)⟩], 4, some GoErr.foundBetter)) 1 id
        ⟨[0], (5 : ℚ)⟩ [] []).1.1 = true ∧
    (Poller.Poll ⟨1, 0, [], [], none, 0⟩ (fun _ => ((0 : ℚ), none))
        (fun _ _ => ([⟨[1], (3 : ℚ)⟩], 4, some GoErr.foundBetter)) 1 id
        ⟨[0], (5 : ℚ)⟩ [] []).1.2.1.val < ((5 : ℚ) : Val) ∧
    (Poller.Poll ⟨1, 0, [], [], none, 0⟩ (fun _ => ((0 : ℚ), none))
        (fun _ _ => ([⟨[1], (3 : ℚ)⟩], 4, some GoErr.foundBetter)) 1 id
        ⟨[0], (5 : ℚ)⟩ [] []).1.2.2.2 = none :=
  poller_poll_earlystop ⟨1, 0, [], [], none, 0⟩ (fun _ => ((0 : ℚ), none))
    (fun _ _ => ([⟨[1], (3 : ℚ)⟩], 4, some GoErr.foundBetter)) 1 id
    ⟨[0], (5 : ℚ)⟩ [] [] (Or.inr rfl)
    ⟨⟨[1], (3 : ℚ)⟩, by simp, by
      show ((3 : ℚ) : Val) < ((5 : ℚ) : Val)
      exact_mod_cast (by norm_num : (3 : ℚ) < 5)⟩

end PollerClaims

namespace Optim

/-- Default point for `getD` indexing (Go panics out of range). -/
def dfltPt : Point := ⟨[], ⊤⟩

/-- The index of the first point whose position is `x` (the model of the
point-hash lookup: equal SHA-1 hash is equal position).  Equals the
length when no point matches. -/
def firstOcc (x : List ℚ) : List Point → ℕ
  | [] => 0
  | p :: rest => if p.pos = x then 0 else firstOcc x rest + 1

/-- `optim.uniqof` (src/optim.go lines 220-233): `indexes[i]` is the first
index holding the same position (hash) as point `i`; a unique position
has `indexes[i] = i`. -/
def uniqof (ps : List Point) : List ℕ := ps.map fun p => firstOcc p.pos ps

/-- `firstOcc` finds an occurrence when one exists. -/
theorem firstOcc_found (x : List ℚ) (ps : List Point)
    (h : ∃ p ∈ ps, p.pos = x) :
    firstOcc x ps < ps.length ∧ (ps.getD (firstOcc x ps) dfltPt).pos = x := by
  induction ps with
  | nil => simp at h
  | cons p rest ih =>
      by_cases hp : p.pos = x
      · simp [firstOcc, hp]
      · rcases h with ⟨q, hq, hqx⟩
        rcases List.mem_cons.mp hq with rfl | hq
        · exact absurd hqx hp
        · have := ih ⟨q, hq, hqx⟩
          simp only [firstOcc, if_neg hp]
          exact ⟨by simpa using Nat.succ_lt_succ this.1, by simpa using this.2⟩

/-- Everything before the first occurrence has a different position. -/
theorem firstOcc_before (x : List ℚ) (ps : List Point) (j : ℕ)
    (hj : j < firstOcc x ps) : (ps.getD j dfltPt).pos ≠ x := by
  induction ps generalizing j with
  | nil => simp [firstOcc] at hj
  | cons p rest ih =>
      by_cases hp : p.pos = x
      · simp [firstOcc, hp] at hj
      · simp only [firstOcc, if_neg hp] at hj
        cases j with
        | zero => simpa using hp
        | succ j => simpa using ih j (Nat.lt_of_succ_lt_succ hj)

/-- The first occurrence is no later than any occurrence. -/
theorem firstOcc_le (x : List ℚ) (ps : List Point) (i : ℕ)
    (hx : (ps.getD i dfltPt).pos = x) : firstOcc x ps ≤ i := by
  by_contra hlt
  exact firstOcc_before x ps i (Nat.lt_of_not_le hlt) hx

/-- Reading `uniqof` within range. -/
theorem uniqof_getD (ps : List Point) (i : ℕ) (hi : i < ps.length) :
    (uniqof ps).getD i i = firstOcc (ps.getD i dfltPt).pos ps := by
  unfold uniqof
  rw [List.getD_eq_getElem?_getD, List.getElem?_map]
  have : ps[i]? = some (ps.getD i dfltPt) := by
    rw [List.getD_eq_getElem?_getD, List.getElem?_eq_getElem hi]
    simp
  rw [this]
  simp

/-- The first occurrence of an in-range index: it is `≤ i`, holds the
same position, and is its own first occurrence. -/
theorem uniqof_spec (ps : List Point) (i : ℕ) (hi : i < ps.length) :
    (uniqof ps).getD i i ≤ i ∧
    (ps.getD ((uniqof ps).getD i i) dfltPt).pos = (ps.getD i dfltPt).pos ∧
    (uniqof ps).getD ((uniqof ps).getD i i) ((uniqof ps).getD i i) =
      (uniqof ps).getD i i := by
  have hmem : ∃ p ∈ ps, p.pos = (ps.getD i dfltPt).pos := by
    refine ⟨ps.getD i dfltPt, ?_, rfl⟩
    rw [List.getD_eq_getElem?_getD, List.getElem?_eq_getElem hi]
    exact List.getElem_mem hi
  have hfound := firstOcc_found _ ps hmem
  rw [uniqof_getD ps i hi]
  refine ⟨firstOcc_le _ ps i rfl, hfound.2, ?_⟩
  rw [uniqof_getD ps _ hfound.1, hfound.2]

/-- `indexes[i] = i` exactly when no earlier point shares position `i`. -/
theorem uniqof_eq_self_iff (ps : List Point) (i : ℕ) (hi : i < ps.length) :
    (uniqof ps).getD i i = i ↔
      ∀ j < i, (ps.getD j dfltPt).pos ≠ (ps.getD i dfltPt).pos := by
  rw [uniqof_getD ps i hi]
  constructor
  · intro h j hj
    exact firstOcc_before _ ps j (h.symm ▸ hj)
  · intro h
    have hle := firstOcc_le (ps.getD i dfltPt).pos ps i rfl
    rcases Nat.lt_or_ge (firstOcc (ps.getD i dfltPt).pos ps) i with hlt | hge
    · have hmem : ∃ p ∈ ps, p.pos = (ps.getD i dfltPt).pos := by
        refine ⟨ps.getD i dfltPt, ?_, rfl⟩
        rw [List.getD_eq_getElem?_getD, List.getElem?_eq_getElem hi]
        exact List.getElem_mem hi
      exact absurd (firstOcc_found _ ps hmem).2 (h _ hlt)
    · exact le_antisymm hle hge

end Optim

namespace Optim

/-- First-occurrence deduplication of a list of positions, in input
order (spec-side: "the number of distinct point positions" and "the value
of the first occurrence" quantify over this list). -/
def dedupFirst (l : List (List ℚ)) : List (List ℚ) :=
  l.foldl (fun acc x => if x ∈ acc then acc else acc ++ [x]) []

theorem foldl_dedup_mem (l : List (List ℚ)) (acc : List (List ℚ))
    (y : List ℚ) :
    (y ∈ l.foldl (fun acc x => if x ∈ acc then acc else acc ++ [x]) acc ↔
      y ∈ acc ∨ y ∈ l) := by
  induction l generalizing acc with
  | nil => simp
  | cons x l ih =>
      simp only [List.foldl_cons]
      rw [ih]
      by_cases hx : x ∈ acc
      · simp only [if_pos hx]
        constructor
        · rintro (h | h)
          · exact Or.inl h
          · exact Or.inr (List.mem_cons_of_mem _ h)
        · rintro (h | h)
          · exact Or.inl h
          · rcases List.mem_cons.mp h with rfl | h
            · exact Or.inl hx
            · exact Or.inr h
      · simp only [if_neg hx]
        constructor
        · rintro (h | h)
          · rcases List.mem_append.mp h with h | h
            · exact Or.inl h
            · simp at h
              exact Or.inr (h ▸ List.mem_cons_self x l)
          · exact Or.inr (List.mem_cons_of_mem _ h)
        · rintro (h | h)
          · exact Or.inl (List.mem_append.mpr (Or.inl h))
          · rcases List.mem_cons.mp h with rfl | h
            · exact Or.inl (List.mem_append.mpr (Or.inr (by simp)))
            · exact Or.inr h

/-- Membership passes through `dedupFirst`. -/
theorem mem_dedupFirst (l : List (List ℚ)) (y : List ℚ) :
    y ∈ dedupFirst l ↔ y ∈ l := by
  rw [dedupFirst, foldl_dedup_mem]
  simp

/-- Appending one element to the deduplicated list. -/
theorem dedupFirst_append_singleton (l : List (List ℚ)) (x : List ℚ) :
    dedupFirst (l ++ [x]) =
      if x ∈ l then dedupFirst l else dedupFirst l ++ [x] := by
  unfold dedupFirst
  rw [List.foldl_append]
  simp only [List.foldl_cons, List.foldl_nil]
  by_cases hx : x ∈ l
  · rw [if_pos ((foldl_dedup_mem l [] x).mpr (Or.inr hx)), if_pos hx]
  · rw [if_neg, if_neg hx]
    intro hmem
    rcases (foldl_dedup_mem l [] x).mp hmem with h | h
    · simp at h
    · exact hx h

/-- Positions of the length-`i` prefix of a batch. -/
theorem mem_take_map_pos (ps : List Point) (x : List ℚ) (i : ℕ)
    (hi : i ≤ ps.length) :
    (x ∈ (ps.take i).map Point.pos ↔
      ∃ j, j < i ∧ (ps.getD j dfltPt).pos = x) := by
  rw [List.mem_map]
  constructor
  · rintro ⟨p, hp, rfl⟩
    rcases List.mem_iff_getElem.mp hp with ⟨j, hj, rfl⟩
    have hj' : j < i := by
      have := hj
      simp only [List.length_take] at this
      omega
    refine ⟨j, hj', ?_⟩
    rw [List.getElem_take]
    rw [List.getD_eq_getElem _ _ (by omega : j < ps.length)]
  · rintro ⟨j, hj, hx⟩
    have hjlen : j < ps.length := lt_of_lt_of_le hj hi
    refine ⟨ps.getD j dfltPt, ?_, hx⟩
    rw [List.getD_eq_getElem _ _ hjlen]
    apply List.mem_iff_getElem.mpr
    refine ⟨j, ?_, ?_⟩
    · simp only [List.length_take]
      omega
    · exact List.getElem_take ..

/-- Prefix positions extended by one point. -/
theorem take_succ_map_pos (ps : List Point) (i : ℕ) (hi : i < ps.length) :
    (ps.take (i + 1)).map Point.pos =
      (ps.take i).map Point.pos ++ [(ps.getD i dfltPt).pos] := by
  rw [List.take_succ, List.getElem?_eq_getElem hi, List.map_append,
    List.getD_eq_getElem ps dfltPt hi]
  simp

end Optim

namespace Optim

/-- The loop of `optim.SerialEvaler.Eval` (src/optim.go lines 194-206):
`idxs` is the precomputed `uniqof` index map of the whole batch, `i` the
current index, `acc` the results filled so far (reversed; `none` marks a
skipped duplicate slot), and `calls` the positions passed to the
objective so far (reversed) — the returned count `n` is its length, since
the Go code increments `n` exactly once per `obj.Objective` call.  With
`cont = false` an error aborts with the results truncated after the
failing point (`results[:i+1]`). -/
def serialLoop (obj : Objective) (cont : Bool) (idxs : List ℕ) :
    List Point → ℕ → List (Option Point) → List (List ℚ) →
    List (Option Point) × ℕ × Option GoErr × List (List ℚ)
  | [], _, acc, calls => (acc.reverse, calls.length, none, calls.reverse)
  | p :: rest, i, acc, calls =>
      if idxs.getD i i ≠ i then
        serialLoop obj cont idxs rest (i + 1) (none :: acc) calls
      else
        let v := (obj p.pos).1
        let e := (obj p.pos).2
        if e.isSome ∧ cont = false then
          ((some ⟨p.pos, v⟩ :: acc).reverse, (p.pos :: calls).length, e,
            (p.pos :: calls).reverse)
        else
          serialLoop obj cont idxs rest (i + 1) (some ⟨p.pos, v⟩ :: acc)
            (p.pos :: calls)

/-- `optim.fillfromuniq` (src/optim.go lines 235-241), run by the `defer`
on the (possibly truncated) results: every duplicate slot receives a
clone of its first occurrence's result. -/
def fillfromuniq (idxs : List ℕ) (res : List (Option Point)) :
    List (Option Point) :=
  (List.range res.length).map fun i =>
    if idxs.getD i i ≠ i then res.getD (idxs.getD i i) none
    else res.getD i none

/-- `optim.SerialEvaler.Eval` (src/optim.go lines 188-209): compute the
duplicate map, walk the batch in order evaluating first occurrences,
abort (when `cont = false`) after the first error with the truncated
prefix, and fill duplicate slots from their first occurrences.  Returns
`(results, n, err, calls)` where `calls` is the ghost trace of positions
passed to the objective (`n` is its length). -/
def SerialEvaler.Eval (cont : Bool) (obj : Objective) (points : List Point) :
    List (Option Point) × ℕ × Option GoErr × List (List ℚ) :=
  let idxs := uniqof points
  let r := serialLoop obj cont idxs points 0 [] []
  (fillfromuniq idxs r.1, r.2.1, r.2.2.1, r.2.2.2)

end Optim

namespace Optim

/-- The contents of slot `j` of the serial loop's (pre-fill) results:
the evaluated point at unique indices, `none` at duplicate slots. -/
def serialEntry (obj : Objective) (pts : List Point) (j : ℕ) : Option Point :=
  if (uniqof pts).getD j j = j
  then some ⟨(pts.getD j dfltPt).pos, (obj (pts.getD j dfltPt).pos).1⟩
  else none

/-- Postcondition of the serial loop started at index `i` (`cont =
false`): result length between `i` and the batch length, slot contents
`serialEntry`, call trace = first-occurrence dedup of the processed
prefix's positions with `n` its length, full length when no error, and on
error a truncated prefix ending at the first failing unique index. -/
def serialPost (obj : Objective) (pts : List Point) (i : ℕ)
    (L : List (Option Point) × ℕ × Option GoErr × List (List ℚ)) : Prop :=
  (i ≤ L.1.length ∧ L.1.length ≤ pts.length) ∧
  (∀ j, j < L.1.length → L.1.getD j none = serialEntry obj pts j) ∧
  L.2.2.2 = dedupFirst ((pts.take L.1.length).map Point.pos) ∧
  L.2.1 = L.2.2.2.length ∧
  (L.2.2.1 = none → L.1.length = pts.length) ∧
  (∀ e, L.2.2.1 = some e →
    0 < L.1.length ∧
    (uniqof pts).getD (L.1.length - 1) (L.1.length - 1) = L.1.length - 1 ∧
    (obj (pts.getD (L.1.length - 1) dfltPt).pos).2 = some e ∧
    ∀ j, j < L.1.length - 1 → (uniqof pts).getD j j = j →
      (obj (pts.getD j dfltPt).pos).2 = none)

/-- Extending the reversed accumulator by one slot. -/
theorem accrev_extend (i : ℕ) (acc : List (Option Point)) (z : Option Point)
    (f : ℕ → Option Point) (hlen : acc.length = i)
    (h3 : ∀ j, j < i → acc.reverse.getD j none = f j) (hz : z = f i) :
    ∀ j, j < i + 1 → ((z :: acc).reverse).getD j none = f j := by
  intro j hj
  rw [List.reverse_cons]
  rcases Nat.lt_or_ge j i with hji | hji
  · rw [List.getD_append _ _ _ _ (by simpa [hlen] using hji)]
    exact h3 j hji
  · have hji' : j = i := by omega
    subst hji'
    rw [List.getD_append_right _ _ _ _ (by simp [hlen])]
    simp [hlen, hz]

/-- Master invariant of the serial evaluation loop (`cont = false`). -/
theorem serialLoop_spec (obj : Objective) (pts : List Point) :
    ∀ (rest : List Point) (i : ℕ) (acc : List (Option Point))
      (calls : List (List ℚ)),
      rest = pts.drop i →
      acc.length = i →
      i ≤ pts.length →
      (∀ j, j < i → acc.reverse.getD j none = serialEntry obj pts j) →
      calls.reverse = dedupFirst ((pts.take i).map Point.pos) →
      (∀ j, j < i → (uniqof pts).getD j j = j →
        (obj (pts.getD j dfltPt).pos).2 = none) →
      serialPost obj pts i
        (serialLoop obj false (uniqof pts) rest i acc calls) := by
  intro rest
  induction rest with
  | nil =>
      intro i acc calls hrest hlen hile h3 h4 h5
      have hi : i = pts.length := by
        have := congrArg List.length hrest
        simp [List.length_drop] at this
        omega
      simp only [serialLoop, serialPost]
      refine ⟨⟨?_, ?_⟩, ?_, ?_, ?_, ?_, ?_⟩
      · simp [hlen]
      · simp [hlen, hi]
      · intro j hj
        simp only [List.length_reverse, hlen] at hj
        exact h3 j hj
      · simp only [List.length_reverse, hlen]
        rw [h4, hi, List.take_length]
      · simp
      · intro _
        simp [hlen, hi]
      · intro e he
        simp at he
  | cons p rest' ih =>
      intro i acc calls hrest hlen hile h3 h4 h5
      have hi : i < pts.length := by
        have := congrArg List.length hrest
        simp [List.length_drop] at this
        omega
      have hdrop := List.drop_eq_getElem_cons hi
      rw [← hrest] at hdrop
      have hp : p = pts.getD i dfltPt := by
        rw [List.getD_eq_getElem _ _ hi]
        exact ((List.cons.injEq ..).mp hdrop).1
      have hrest' : rest' = pts.drop (i + 1) :=
        ((List.cons.injEq ..).mp hdrop).2
      by_cases hdup : (uniqof pts).getD i i = i
      · -- unique slot: evaluate
        have hz : some (⟨p.pos, (obj p.pos).1⟩ : Point) =
            serialEntry obj pts i := by
          simp only [serialEntry, if_pos hdup]
          rw [hp]
        have hnotmem : ¬ (pts.getD i dfltPt).pos ∈
            (pts.take i).map Point.pos := by
          rw [mem_take_map_pos pts _ i (le_of_lt hi)]
          rintro ⟨j, hj, hjeq⟩
          exact ((uniqof_eq_self_iff pts i hi).mp hdup) j hj hjeq
        have hcalls1 : (p.pos :: calls).reverse =
            dedupFirst ((pts.take (i + 1)).map Point.pos) := by
          rw [take_succ_map_pos pts i hi, dedupFirst_append_singleton,
            if_neg hnotmem, List.reverse_cons, h4, hp]
        by_cases herr : ((obj p.pos).2).isSome
        · -- error: abort with the truncated prefix
          have hstep :
              serialLoop obj false (uniqof pts) (p :: rest') i acc calls =
                ((some ⟨p.pos, (obj p.pos).1⟩ :: acc).reverse,
                  (p.pos :: calls).length, (obj p.pos).2,
                  (p.pos :: calls).reverse) := by
            simp only [serialLoop, if_neg (not_not_intro hdup)]
            rw [if_pos ⟨herr, by trivial⟩]
          rw [hstep]
          refine ⟨⟨?_, ?_⟩, ?_, ?_, ?_, ?_, ?_⟩
          · simp
            omega
          · simp
            omega
          · intro j hj
            simp only [List.length_reverse, List.length_cons, hlen] at hj
            exact accrev_extend i acc _ _ hlen h3 hz j hj
          · simp only [List.length_reverse, List.length_cons, hlen]
            exact hcalls1
          · simp
          · intro hnone
            have : (obj p.pos).2 = none := hnone
            simp [this] at herr
          · intro e he
            have he' : (obj p.pos).2 = some e := he
            refine ⟨by simp, ?_, ?_, ?_⟩
            · simp only [List.length_reverse, List.length_cons, hlen]
              simpa using hdup
            · simp only [List.length_reverse, List.length_cons, hlen]
              simp only [Nat.add_sub_cancel]
              rw [← hp]
              exact he'
            · intro j hj hjuniq
              simp only [List.length_reverse, List.length_cons, hlen] at hj
              exact h5 j (by omega) hjuniq
        · -- no error: continue
          have hstep :
              serialLoop obj false (uniqof pts) (p :: rest') i acc calls =
                serialLoop obj false (uniqof pts) rest' (i + 1)
                  (some ⟨p.pos, (obj p.pos).1⟩ :: acc) (p.pos :: calls) := by
            simp only [serialLoop, if_neg (not_not_intro hdup)]
            rw [if_neg (by
              rintro ⟨h1, _⟩
              exact herr h1)]
          rw [hstep]
          have hpost := ih (i + 1) (some ⟨p.pos, (obj p.pos).1⟩ :: acc)
            (p.pos :: calls) hrest' (by simp [hlen]) hi
            (accrev_extend i acc _ _ hlen h3 hz)
            hcalls1
            (by
              intro j hj hjuniq
              rcases Nat.lt_or_ge j i with hji | hji
              · exact h5 j hji hjuniq
              · have : j = i := by omega
                subst this
                rw [← hp]
                exact Option.not_isSome_iff_eq_none.mp herr)
          rcases hpost with ⟨⟨hb1, hb2⟩, hrestconc⟩
          exact ⟨⟨by omega, hb2⟩, hrestconc⟩
      · -- duplicate slot: skip, push `none`
        have hstep :
            serialLoop obj false (uniqof pts) (p :: rest') i acc calls =
              serialLoop obj false (uniqof pts) rest' (i + 1) (none :: acc)
                calls := by
          simp only [serialLoop]
          rw [if_pos hdup]
        rw [hstep]
        have hmem : (pts.getD i dfltPt).pos ∈ (pts.take i).map Point.pos := by
          rw [mem_take_map_pos pts _ i (le_of_lt hi)]
          by_contra hno
          push_neg at hno
          exact hdup ((uniqof_eq_self_iff pts i hi).mpr hno)
        have hpost := ih (i + 1) (none :: acc) calls hrest'
          (by simp [hlen]) hi
          (accrev_extend i acc none _ hlen h3
            (by simp only [serialEntry, if_neg hdup]))
          (by
            rw [take_succ_map_pos pts i hi, dedupFirst_append_singleton,
              if_pos hmem]
            exact h4)
          (by
            intro j hj hjuniq
            rcases Nat.lt_or_ge j i with hji | hji
            · exact h5 j hji hjuniq
            · have : j = i := by omega
              subst this
              exact absurd hjuniq hdup)
        rcases hpost with ⟨⟨hb1, hb2⟩, hrestconc⟩
        exact ⟨⟨by omega, hb2⟩, hrestconc⟩

theorem fillfromuniq_length (idxs : List ℕ) (res : List (Option Point)) :
    (fillfromuniq idxs res).length = res.length := by
  simp [fillfromuniq]

theorem fillfromuniq_getD (idxs : List ℕ) (res : List (Option Point))
    (i : ℕ) (hi : i < res.length) :
    (fillfromuniq idxs res).getD i none =
      (if idxs.getD i i ≠ i then res.getD (idxs.getD i i) none
       else res.getD i none) := by
  unfold fillfromuniq
  exact Swarm.getD_map_range _ _ _ _ hi

end Optim

section SerialClaims

open Optim

/-- C5: `SerialEvaler.Eval` with `ContinueOnErr` unset.  Writing
`(results, n, err, calls)` for its output (`calls` being the trace of
positions handed to the objective, whose length the code's counter `n`
reports) and `k = results.length`:

1. the objective is invoked on exactly the distinct positions of the
   processed prefix, in input order and once each
   (`calls = dedupFirst` of the prefix's positions), so duplicates are
   never re-evaluated;
2. `n = calls.length`;
3. every returned slot `i` carries the input position `pts[i].pos` and
   the objective value at that position — a duplicate receives a copy of
   its first occurrence's value;
4. with no error the whole batch is returned (`k = pts.length`);
5. on an error `e`, the results are the prefix up to and including the
   failing point: the last returned point is the first failing one
   (its objective error is `e`, every earlier point's objective error is
   `none`). -/
theorem serial_eval_spec (obj : Objective) (pts : List Point) :
    (SerialEvaler.Eval false obj pts).2.2.2 =
      dedupFirst ((pts.take
        (SerialEvaler.Eval false obj pts).1.length).map Point.pos) ∧
    (SerialEvaler.Eval false obj pts).2.1 =
      (SerialEvaler.Eval false obj pts).2.2.2.length ∧
    (∀ i, i < (SerialEvaler.Eval false obj pts).1.length →
      (SerialEvaler.Eval false obj pts).1.getD i none =
        some ⟨(pts.getD i dfltPt).pos, (obj (pts.getD i dfltPt).pos).1⟩) ∧
    ((SerialEvaler.Eval false obj pts).2.2.1 = none →
      (SerialEvaler.Eval false obj pts).1.length = pts.length) ∧
    (∀ e, (SerialEvaler.Eval false obj pts).2.2.1 = some e →
      0 < (SerialEvaler.Eval false obj pts).1.length ∧
      (SerialEvaler.Eval false obj pts).1.length ≤ pts.length ∧
      (obj (pts.getD ((SerialEvaler.Eval false obj pts).1.length - 1)
        dfltPt).pos).2 = some e ∧
      ∀ i, i < (SerialEvaler.Eval false obj pts).1.length - 1 →
        (obj (pts.getD i dfltPt).pos).2 = none) := by
  have hpost := serialLoop_spec obj pts pts 0 [] []
    (List.drop_zero pts).symm rfl (Nat.zero_le _)
    (by intro j hj; omega)
    (by simp [dedupFirst])
    (by intro j hj; omega)
  rcases hpost with ⟨⟨hlb, hub⟩, hent, hcalls, hn, hnone, herr⟩
  have hkeq : (SerialEvaler.Eval false obj pts).1.length =
      (serialLoop obj false (uniqof pts) pts 0 [] []).1.length := by
    simp only [SerialEvaler.Eval]
    exact fillfromuniq_length _ _
  refine ⟨?_, ?_, ?_, ?_, ?_⟩
  · simp only [SerialEvaler.Eval]
    rw [fillfromuniq_length]
    exact hcalls
  · simp only [SerialEvaler.Eval]
    exact hn
  · intro i hik
    rw [hkeq] at hik
    have hilen : i < pts.length := lt_of_lt_of_le hik hub
    simp only [SerialEvaler.Eval]
    rw [fillfromuniq_getD _ _ i hik]
    by_cases hu : (uniqof pts).getD i i = i
    · rw [if_neg (not_not_intro hu)]
      rw [hent i hik]
      simp only [serialEntry, if_pos hu]
    · rw [if_pos hu]
      rcases uniqof_spec pts i hilen with ⟨hle, hposeq, hself⟩
      have hfi : (uniqof pts).getD i i < i := lt_of_le_of_ne hle hu
      rw [hent _ (lt_trans hfi hik)]
      simp only [serialEntry, if_pos hself, hposeq]
  · intro hne
    rw [hkeq]
    exact hnone hne
  · intro e he
    rcases herr e he with ⟨hpos0, huniq, hobj, hprev⟩
    rw [hkeq]
    refine ⟨hpos0, hub, hobj, ?_⟩
    intro i hik
    have hilen : i < pts.length := by omega
    by_cases hu : (uniqof pts).getD i i = i
    · exact hprev i hik hu
    · rcases uniqof_spec pts i hilen with ⟨hle, hposeq, hself⟩
      have hfi : (uniqof pts).getD i i < i := lt_of_le_of_ne hle hu
      rw [← hposeq]
      exact hprev _ (by omega) hself

end SerialClaims

section SerialWitness

open Optim

/-- C5 witness: a singleton batch with a constant error-free objective —
conjunct 4 applied with `err = none` discharged by `rfl` gives the full
length, and conjunct 2 the call count. -/
theorem serial_eval_spec_witness :
    (SerialEvaler.Eval false (fun _ => (((0 : ℚ) : Val), none))
        [⟨[], ((0 : ℚ) : Val)⟩]).1.length =
      [(⟨[], ((0 : ℚ) : Val)⟩ : Point)].length ∧
    (SerialEvaler.Eval false (fun _ => (((0 : ℚ) : Val), none))
        [⟨[], ((0 : ℚ) : Val)⟩]).2.1 =
      (SerialEvaler.Eval false (fun _ => (((0 : ℚ) : Val), none))
        [⟨[], ((0 : ℚ) : Val)⟩]).2.2.2.length :=
  ⟨(serial_eval_spec (fun _ => (((0 : ℚ) : Val), none))
      [⟨[], ((0 : ℚ) : Val)⟩]).2.2.2.1 rfl,
   (serial_eval_spec (fun _ => (((0 : ℚ) : Val), none))
      [⟨[], ((0 : ℚ) : Val)⟩]).2.1⟩

end SerialWitness

namespace Optim

/-- The cache of `optim.CacheEvaler` (src/optim.go lines 135-141): a map
from point hash to the value observed there, modelled as an association
list over positions (hash = position, per the SHA-1 convention above);
later insertions shadow earlier ones, as map assignment does. -/
abbrev Cache : Type := List (List ℚ × Val)

/-- Map lookup `ev.cache[h]`. -/
def cacheLookup (c : Cache) (x : List ℚ) : Option Val :=
  match c.find? fun e => decide (e.1 = x) with
  | some e => some e.2
  | none => none

/-- Map assignment `ev.cache[h] = v`. -/
def cacheInsert (c : Cache) (x : List ℚ) (v : Val) : Cache := (x, v) :: c

/-- The partition loop of `CacheEvaler.Eval` (src/optim.go
lines 154-164), walking the batch from index `i`: cache misses
contribute their index to `fromnew` and the point itself to `newp`
(hits are handled through the cache when the results are assembled). -/
def cachePartition (c : Cache) : List Point → ℕ → List ℕ × List Point
  | [], _ => ([], [])
  | p :: rest, i =>
      let r := cachePartition c rest (i + 1)
      if cacheLookup c p.pos = none then (i :: r.1, p :: r.2) else r

/-- `optim.CacheEvaler` state. -/
structure CacheEvaler where
  cache : Cache
  useCount : ℕ

/-- `optim.NewCacheEvaler` (src/optim.go lines 143-148): empty cache. -/
def NewCacheEvaler : CacheEvaler := ⟨[], 0⟩

/-- One write-back step
`results[fromnew[i]].Val = newresults[i].Val` (src/optim.go
lines 171-173): the slot keeps its position and takes the new value (a
`nil` entry in `newresults` would crash the Go loop and leaves the model
unchanged — unreachable for the serial inner evaluator). -/
def writeBack (res : List Point) (pr : Option Point × ℕ) : List Point :=
  match pr.1 with
  | some p => res.set pr.2 ⟨(res.getD pr.2 dfltPt).pos, p.val⟩
  | none => res

/-- `optim.CacheEvaler.Eval` (src/optim.go lines 150-182).  The wrapped
evaluator (`ev.ev`, an interface field) is the function argument `ev`.
Results start as the inputs with cached values filled in (`+Inf` at
misses, "to be safe"); only the missed points go to the inner evaluator;
every returned new result is stored into the cache and written back into
its slot; finally, when there were misses, the results are truncated
after slot `fromnew[len(newresults)-1]` (the Go intent is to shrink on an
inner error; with no error this also drops any trailing cache hit after
the last miss).  An empty `newresults` with misses would panic in Go
(index `-1`); the natural-subtraction model reads `fromnew[0]`. -/
def CacheEvaler.Eval (ce : CacheEvaler)
    (ev : Objective → List Point → List (Option Point) × ℕ × Option GoErr)
    (obj : Objective) (points : List Point) :
    (List Point × ℕ × Option GoErr) × CacheEvaler :=
  let part := cachePartition ce.cache points 0
  let fromnew := part.1
  let newp := part.2
  let results0 := (List.range points.length).map fun j =>
    match cacheLookup ce.cache (points.getD j dfltPt).pos with
    | some v => (⟨(points.getD j dfltPt).pos, v⟩ : Point)
    | none => (⟨(points.getD j dfltPt).pos, ⊤⟩ : Point)
  let hits := points.length - newp.length
  let r := ev obj newp
  let newresults := r.1
  let n := r.2.1
  let err := r.2.2
  let cache' := newresults.foldl
    (fun cc op => match op with
      | some p => cacheInsert cc p.pos p.val
      | none => cc)
    ce.cache
  let results1 := (newresults.zip fromnew).foldl writeBack results0
  let results2 :=
    if fromnew ≠ [] then
      results1.take (fromnew.getD (newresults.length - 1) 0 + 1)
    else results1
  ((results2, n, err), ⟨cache', ce.useCount + hits⟩)

end Optim

namespace Optim

theorem cacheLookup_insert (c : Cache) (y x : List ℚ) (v : Val) :
    cacheLookup (cacheInsert c y v) x =
      if y = x then some v else cacheLookup c x := by
  unfold cacheLookup cacheInsert
  by_cases h : y = x
  · rw [List.find?_cons_of_pos _ (by simpa using h), if_pos h]
  · rw [List.find?_cons_of_neg _ (by simpa using h), if_neg h]

theorem cachePartition_lengths (c : Cache) (l : List Point) (k : ℕ) :
    (cachePartition c l k).1.length = (cachePartition c l k).2.length := by
  induction l generalizing k with
  | nil => rfl
  | cons p rest ih =>
      simp only [cachePartition]
      split
      · simpa using ih (k + 1)
      · exact ih (k + 1)

theorem cachePartition_newp (c : Cache) (l : List Point) (k : ℕ) :
    (cachePartition c l k).2 =
      l.filter fun p => decide (cacheLookup c p.pos = none) := by
  induction l generalizing k with
  | nil => rfl
  | cons p rest ih =>
      simp only [cachePartition, List.filter_cons]
      by_cases h : cacheLookup c p.pos = none
      · rw [if_pos h]
        simp only [h, decide_eq_true_eq, if_true]
        simpa using ih (k + 1)
      · rw [if_neg h]
        simp only [decide_eq_true_eq, if_neg h]
        exact ih (k + 1)

/-- Rank `r` of the partition: the miss index points back into the batch
at the matching new point. -/
theorem cachePartition_rank (c : Cache) (l : List Point) (k : ℕ) :
    ∀ r, r < (cachePartition c l k).1.length →
      ∃ j, j < l.length ∧
        (cachePartition c l k).1.getD r 0 = k + j ∧
        l.getD j dfltPt = (cachePartition c l k).2.getD r dfltPt ∧
        cacheLookup c (l.getD j dfltPt).pos = none := by
  induction l generalizing k with
  | nil => intro r hr; simp [cachePartition] at hr
  | cons p rest ih =>
      intro r hr
      simp only [cachePartition] at hr ⊢
      by_cases h : cacheLookup c p.pos = none
      · rw [if_pos h] at hr ⊢
        cases r with
        | zero =>
            exact ⟨0, by simp, by simp, by simp, by simpa using h⟩
        | succ r =>
            simp only [List.length_cons, Nat.succ_lt_succ_iff] at hr
            rcases ih (k + 1) r hr with ⟨j, hj, hidx, hpt, hmiss⟩
            exact ⟨j + 1, by simpa using hj,
              by simpa [Nat.add_assoc, Nat.add_comm 1 j] using hidx,
              by simpa using hpt, by simpa using hmiss⟩
      · rw [if_neg h] at hr ⊢
        rcases ih (k + 1) r hr with ⟨j, hj, hidx, hpt, hmiss⟩
        exact ⟨j + 1, by simpa using hj,
          by simpa [Nat.add_assoc, Nat.add_comm 1 j] using hidx,
          by simpa using hpt, by simpa using hmiss⟩

/-- Every miss index of the batch appears in the partition. -/
theorem cachePartition_covers (c : Cache) (l : List Point) (k : ℕ) :
    ∀ j, j < l.length → cacheLookup c (l.getD j dfltPt).pos = none →
      (k + j) ∈ (cachePartition c l k).1 := by
  induction l generalizing k with
  | nil => intro j hj; simp at hj
  | cons p rest ih =>
      intro j hj hmiss
      simp only [cachePartition]
      cases j with
      | zero =>
          simp only [List.getD_cons_zero] at hmiss
          rw [if_pos hmiss]
          simp
      | succ j =>
          have hrec := ih (k + 1) j (by simpa using hj)
            (by simpa using hmiss)
          have : k + 1 + j = k + (j + 1) := by omega
          rw [this] at hrec
          split
          · exact List.mem_cons_of_mem _ hrec
          · exact hrec

end Optim

namespace Optim

/-- Slot-level description of one write-back step. -/
theorem writeBack_getD (res : List Point) (pr : Option Point × ℕ) (j : ℕ) :
    (writeBack res pr).getD j dfltPt =
      (match pr.1 with
       | some p =>
           if pr.2 = j ∧ j < res.length
           then (⟨(res.getD j dfltPt).pos, p.val⟩ : Point)
           else res.getD j dfltPt
       | none => res.getD j dfltPt) := by
  unfold writeBack
  cases hp : pr.1 with
  | none => rfl
  | some p =>
      simp only []
      by_cases hc : pr.2 = j ∧ j < res.length
      · rw [if_pos hc]
        rcases hc with ⟨he, hj⟩
        subst he
        rw [List.getD_eq_getElem _ _ (by simpa using hj)]
        rw [List.getElem_set_self]
      · rw [if_neg hc]
        rcases Nat.lt_or_ge j res.length with hj | hj
        · have hne : pr.2 ≠ j := fun he => hc ⟨he, hj⟩
          rw [List.getD_eq_getElem _ _ (by simpa using hj),
            List.getD_eq_getElem _ _ hj]
          exact List.getElem_set_ne hne _
        · rw [List.getD_eq_default _ _ (by simpa using hj),
            List.getD_eq_default _ _ hj]

theorem writeBack_length (res : List Point) (pr : Option Point × ℕ) :
    (writeBack res pr).length = res.length := by
  unfold writeBack
  split <;> simp

/-- Positions are preserved slot-wise by one write-back step. -/
theorem writeBack_pos (res : List Point) (pr : Option Point × ℕ) (j : ℕ) :
    ((writeBack res pr).getD j dfltPt).pos = (res.getD j dfltPt).pos := by
  rw [writeBack_getD]
  cases pr.1 with
  | none => rfl
  | some p =>
      simp only []
      split <;> rfl

/-- After the write-back fold, every slot holds the objective's value at
its own position, provided every slot either already did or has a pending
write, and every pending write carries the objective's value at its
target slot's position. -/
theorem writeback_all_good (obj : Objective) :
    ∀ (pairs : List (Option Point × ℕ)) (res : List Point),
      (∀ j, j < res.length →
        ((res.getD j dfltPt).val = (obj (res.getD j dfltPt).pos).1 ∨
          ∃ pr ∈ pairs, pr.2 = j)) →
      (∀ pr ∈ pairs, ∃ p, pr.1 = some p ∧ pr.2 < res.length ∧
        p.val = (obj (res.getD pr.2 dfltPt).pos).1) →
      ∀ j, j < (pairs.foldl writeBack res).length →
        ((pairs.foldl writeBack res).getD j dfltPt).val =
          (obj ((pairs.foldl writeBack res).getD j dfltPt).pos).1 := by
  intro pairs
  induction pairs with
  | nil =>
      intro res h1 _ j hj
      simp only [List.foldl_nil] at hj ⊢
      rcases h1 j hj with h | h
      · exact h
      · simp at h
  | cons pr rest ih =>
      intro res h1 h2 j hj
      simp only [List.foldl_cons] at hj ⊢
      rcases h2 pr (List.mem_cons_self ..) with ⟨p, hsome, hlt, hval⟩
      have hwlen : (writeBack res pr).length = res.length :=
        writeBack_length res pr
      apply ih (writeBack res pr)
      · intro j' hj'
        rw [hwlen] at hj'
        by_cases he : pr.2 = j'
        · left
          subst he
          rw [writeBack_getD, hsome]
          simp only []
          rw [if_pos (show True ∧ pr.2 < res.length from ⟨trivial, hlt⟩)]
          exact hval
        · rcases h1 j' hj' with h | ⟨pr', hpr', hpr2⟩
          · left
            rw [writeBack_getD, hsome]
            simp only []
            rw [if_neg (fun hc => he hc.1)]
            exact h
          · rcases List.mem_cons.mp hpr' with rfl | hpr'
            · exact absurd hpr2 he
            · exact Or.inr ⟨pr', hpr', hpr2⟩
      · intro pr' hpr'
        rcases h2 pr' (List.mem_cons_of_mem _ hpr') with ⟨p', hs, hl, hv⟩
        refine ⟨p', hs, by omega, ?_⟩
        rw [writeBack_pos res pr pr'.2]
        exact hv
      · exact hj

end Optim

namespace Optim

/-- All values stored in a cache are the (pure) objective's values at
their keys. -/
def cacheGood (obj : Objective) (c : Cache) : Prop :=
  ∀ x v, cacheLookup c x = some v → v = (obj x).1

/-- The cache-store fold of `CacheEvaler.Eval`
(`for _, p := range newresults { ev.cache[p.Hash()] = p.Val }`). -/
def cacheStore (c : Cache) (rs : List (Option Point)) : Cache :=
  rs.foldl
    (fun cc op => match op with
      | some p => cacheInsert cc p.pos p.val
      | none => cc)
    c

/-- A lookup misses the stored cache iff it missed before and no stored
result carries its key. -/
theorem cacheStore_miss (rs : List (Option Point)) :
    ∀ (c : Cache) (x : List ℚ),
      (cacheLookup (cacheStore c rs) x = none ↔
        cacheLookup c x = none ∧ ∀ p : Point, some p ∈ rs → p.pos ≠ x) := by
  induction rs with
  | nil => intro c x; simp [cacheStore]
  | cons op rest ih =>
      intro c x
      cases op with
      | none =>
          simp only [cacheStore, List.foldl_cons]
          rw [show (rest.foldl
            (fun cc op => match op with
              | some p => cacheInsert cc p.pos p.val
              | none => cc) c) = cacheStore c rest from rfl]
          rw [ih c x]
          constructor
          · rintro ⟨h1, h2⟩
            exact ⟨h1, fun p hp => h2 p (by
              rcases List.mem_cons.mp hp with h | h
              · cases h
              · exact h)⟩
          · rintro ⟨h1, h2⟩
            exact ⟨h1, fun p hp => h2 p (List.mem_cons_of_mem _ hp)⟩
      | some q =>
          simp only [cacheStore, List.foldl_cons]
          rw [show (rest.foldl
            (fun cc op => match op with
              | some p => cacheInsert cc p.pos p.val
              | none => cc) (cacheInsert c q.pos q.val)) =
            cacheStore (cacheInsert c q.pos q.val) rest from rfl]
          rw [ih _ x, cacheLookup_insert]
          by_cases hq : q.pos = x
          · rw [if_pos hq]
            constructor
            · rintro ⟨h1, _⟩
              cases h1
            · rintro ⟨_, h2⟩
              exact absurd hq (h2 q (List.mem_cons_self ..))
          · rw [if_neg hq]
            constructor
            · rintro ⟨h1, h2⟩
              refine ⟨h1, fun p hp => ?_⟩
              rcases List.mem_cons.mp hp with h | h
              · cases h; exact hq
              · exact h2 p h
            · rintro ⟨h1, h2⟩
              exact ⟨h1, fun p hp => h2 p (List.mem_cons_of_mem _ hp)⟩

/-- Storing objective values preserves cache goodness. -/
theorem cacheStore_good (obj : Objective) (rs : List (Option Point)) :
    ∀ (c : Cache), cacheGood obj c →
      (∀ p : Point, some p ∈ rs → p.val = (obj p.pos).1) →
      cacheGood obj (cacheStore c rs) := by
  induction rs with
  | nil => intro c hc _; exact hc
  | cons op rest ih =>
      intro c hc hall
      cases op with
      | none =>
          exact ih c hc fun p hp => hall p (List.mem_cons_of_mem _ hp)
      | some q =>
          apply ih (cacheInsert c q.pos q.val)
          · intro x v hv
            rw [cacheLookup_insert] at hv
            by_cases hq : q.pos = x
            · rw [if_pos hq] at hv
              cases hv
              rw [← hq]
              exact hall q (List.mem_cons_self ..)
            · rw [if_neg hq] at hv
              exact hc x v hv
          · intro p hp
            exact hall p (List.mem_cons_of_mem _ hp)

end Optim

namespace Optim

theorem nodup_foldl_dedup (l : List (List ℚ)) :
    ∀ acc : List (List ℚ), acc.Nodup →
      (l.foldl (fun acc x => if x ∈ acc then acc else acc ++ [x]) acc).Nodup := by
  induction l with
  | nil => intro acc hacc; exact hacc
  | cons x l ih =>
      intro acc hacc
      simp only [List.foldl_cons]
      by_cases hx : x ∈ acc
      · rw [if_pos hx]
        exact ih acc hacc
      · rw [if_neg hx]
        refine ih (acc ++ [x]) ?_
        rw [List.nodup_append]
        exact ⟨hacc, List.nodup_singleton x, by simpa using hx⟩

theorem nodup_dedupFirst (l : List (List ℚ)) : (dedupFirst l).Nodup :=
  nodup_foldl_dedup l [] List.nodup_nil

theorem toFinset_dedupFirst (l : List (List ℚ)) :
    (dedupFirst l).toFinset = l.toFinset := by
  apply Finset.ext
  intro x
  rw [List.mem_toFinset, List.mem_toFinset, mem_dedupFirst]

/-- The length of the first-occurrence dedup is the number of distinct
elements. -/
theorem length_dedupFirst (l : List (List ℚ)) :
    (dedupFirst l).length = l.toFinset.card := by
  rw [← toFinset_dedupFirst]
  exact (List.toFinset_card_of_nodup (nodup_dedupFirst l)).symm

theorem toFinset_filter_not_mem (l2 l1 : List (List ℚ)) :
    (l2.filter fun x => decide (¬ x ∈ l1)).toFinset =
      l2.toFinset \ l1.toFinset := by
  apply Finset.ext
  intro x
  rw [List.mem_toFinset, List.mem_filter, Finset.mem_sdiff,
    List.mem_toFinset, List.mem_toFinset]
  simp

end Optim

namespace Optim

/-- The serial evaluator seen through the `Evaler` interface (dropping
the ghost call trace). -/
def serialInner : Objective → List Point →
    List (Option Point) × ℕ × Option GoErr :=
  fun o ps => ((SerialEvaler.Eval false o ps).1,
    (SerialEvaler.Eval false o ps).2.1, (SerialEvaler.Eval false o ps).2.2.1)

/-- `SerialEvaler.Eval` on an objective that never errors: no error, full
length, the call count is the number of distinct positions, and every
slot carries its input position with the objective's value. -/
theorem serial_eval_pure (obj : Objective)
    (hpure : ∀ x, (obj x).2 = none) (pts : List Point) :
    (SerialEvaler.Eval false obj pts).2.2.1 = none ∧
    (SerialEvaler.Eval false obj pts).1.length = pts.length ∧
    (SerialEvaler.Eval false obj pts).2.1 =
      (pts.map Point.pos).toFinset.card ∧
    (∀ i, i < pts.length →
      (SerialEvaler.Eval false obj pts).1.getD i none =
        some ⟨(pts.getD i dfltPt).pos, (obj (pts.getD i dfltPt).pos).1⟩) := by
  rcases serial_eval_spec obj pts with ⟨hcalls, hn, hslots, hnone, herr⟩
  have he : (SerialEvaler.Eval false obj pts).2.2.1 = none := by
    cases hopt : (SerialEvaler.Eval false obj pts).2.2.1 with
    | none => rfl
    | some e =>
        rcases herr e hopt with ⟨_, _, hbad, _⟩
        rw [hpure] at hbad
        cases hbad
  have hk := hnone he
  refine ⟨he, hk, ?_, fun i hi => hslots i (hk ▸ hi)⟩
  rw [hn, hcalls, hk, List.take_length, length_dedupFirst]

/-- The write-back fold preserves length. -/
theorem foldl_writeBack_length (pairs : List (Option Point × ℕ)) :
    ∀ res : List Point, (pairs.foldl writeBack res).length = res.length := by
  induction pairs with
  | nil => intro res; rfl
  | cons pr rest ih =>
      intro res
      simp only [List.foldl_cons]
      rw [ih, writeBack_length]

/-- The write-back fold preserves slot positions. -/
theorem foldl_writeBack_pos (pairs : List (Option Point × ℕ)) :
    ∀ (res : List Point) (j : ℕ),
      ((pairs.foldl writeBack res).getD j dfltPt).pos =
        (res.getD j dfltPt).pos := by
  induction pairs with
  | nil => intro res j; rfl
  | cons pr rest ih =>
      intro res j
      simp only [List.foldl_cons]
      rw [ih, writeBack_pos]

end Optim

namespace Optim

/-- Membership among the `some`-entries of the serial results is exactly
a position of the batch carrying the objective's value. -/
theorem serial_some_mem (obj : Objective) (hpure : ∀ x, (obj x).2 = none)
    (pts : List Point) (p : Point)
    (hp : some p ∈ (SerialEvaler.Eval false obj pts).1) :
    p.pos ∈ pts.map Point.pos ∧ p.val = (obj p.pos).1 := by
  rcases serial_eval_pure obj hpure pts with ⟨_, hslen, _, hsslots⟩
  rcases List.mem_iff_getElem.mp hp with ⟨r, hr, hrp⟩
  have hr' : r < pts.length := hslen ▸ hr
  have := hsslots r hr'
  rw [List.getD_eq_getElem _ _ hr, hrp] at this
  cases this
  constructor
  · apply List.mem_map.mpr
    refine ⟨pts.getD r dfltPt, ?_, rfl⟩
    rw [List.getD_eq_getElem _ _ hr']
    exact List.getElem_mem hr'
  · rfl

/-- Conversely every batch position appears among the `some`-entries. -/
theorem serial_some_cover (obj : Objective) (hpure : ∀ x, (obj x).2 = none)
    (pts : List Point) (x : List ℚ) (hx : x ∈ pts.map Point.pos) :
    ∃ p : Point, some p ∈ (SerialEvaler.Eval false obj pts).1 ∧ p.pos = x := by
  rcases serial_eval_pure obj hpure pts with ⟨_, hslen, _, hsslots⟩
  rcases List.mem_map.mp hx with ⟨q, hq, rfl⟩
  rcases List.mem_iff_getElem.mp hq with ⟨r, hr, rfl⟩
  have hslot := hsslots r hr
  refine ⟨⟨(pts.getD r dfltPt).pos, (obj (pts.getD r dfltPt).pos).1⟩, ?_, ?_⟩
  · rw [← hslot]
    have hr2 : r < (SerialEvaler.Eval false obj pts).1.length := hslen ▸ hr
    rw [List.getD_eq_getElem _ _ hr2]
    exact List.getElem_mem hr2
  · simp only []
    rw [List.getD_eq_getElem _ _ hr]

end Optim

namespace Optim

/-- One `CacheEvaler.Eval` call wrapping the serial evaluator, on a pure
objective, starting from a cache whose entries hold objective values:
the call count is the number of distinct positions not yet cached, every
returned result carries the objective's value at its position, the new
cache still holds only objective values, a position misses the new cache
iff it missed before and is not in the batch, and no error is returned. -/
theorem cache_eval_serial_pure (obj : Objective)
    (hpure : ∀ x, (obj x).2 = none) (ce : CacheEvaler)
    (hgood : cacheGood obj ce.cache) (S : List Point) :
    (CacheEvaler.Eval ce serialInner obj S).1.2.1 =
      ((S.map Point.pos).filter fun x =>
        decide (cacheLookup ce.cache x = none)).toFinset.card ∧
    (∀ p ∈ (CacheEvaler.Eval ce serialInner obj S).1.1,
      p.val = (obj p.pos).1) ∧
    cacheGood obj (CacheEvaler.Eval ce serialInner obj S).2.cache ∧
    (∀ x, cacheLookup (CacheEvaler.Eval ce serialInner obj S).2.cache x =
        none ↔
      (cacheLookup ce.cache x = none ∧ ¬ x ∈ S.map Point.pos)) ∧
    (CacheEvaler.Eval ce serialInner obj S).1.2.2 = none := by
  have hnp := cachePartition_newp ce.cache S 0
  have hfl := cachePartition_lengths ce.cache S 0
  rcases serial_eval_pure obj hpure (cachePartition ce.cache S 0).2 with
    ⟨hserr, hslen, hsn, hsslots⟩
  -- positions of the missed sub-batch = missed positions of the batch
  have hnppos : (cachePartition ce.cache S 0).2.map Point.pos =
      (S.map Point.pos).filter fun x =>
        decide (cacheLookup ce.cache x = none) := by
    rw [hnp, List.filter_map]
    rfl
  refine ⟨?_, ?_, ?_, ?_, ?_⟩
  · -- call count
    show (SerialEvaler.Eval false obj (cachePartition ce.cache S 0).2).2.1 = _
    rw [hsn, hnppos]
  · -- returned values
    intro p hp
    have hmem1 : p ∈ ((SerialEvaler.Eval false obj
        (cachePartition ce.cache S 0).2).1.zip
          (cachePartition ce.cache S 0).1).foldl writeBack
        ((List.range S.length).map fun j =>
          match cacheLookup ce.cache (S.getD j dfltPt).pos with
          | some v => (⟨(S.getD j dfltPt).pos, v⟩ : Point)
          | none => (⟨(S.getD j dfltPt).pos, ⊤⟩ : Point)) := by
      revert hp
      show p ∈ (if (cachePartition ce.cache S 0).1 ≠ [] then _ else _) → _
      split
      · intro hp
        exact (List.take_prefix _ _).subset hp
      · intro hp
        exact hp
    rcases List.mem_iff_getElem.mp hmem1 with ⟨j, hj, hjp⟩
    have hgoodall := writeback_all_good obj
      ((SerialEvaler.Eval false obj (cachePartition ce.cache S 0).2).1.zip
        (cachePartition ce.cache S 0).1)
      ((List.range S.length).map fun j =>
        match cacheLookup ce.cache (S.getD j dfltPt).pos with
        | some v => (⟨(S.getD j dfltPt).pos, v⟩ : Point)
        | none => (⟨(S.getD j dfltPt).pos, ⊤⟩ : Point))
      ?_ ?_ j (by simpa using hj)
    · rw [List.getD_eq_getElem _ _ hj, hjp] at hgoodall
      exact hgoodall
    · -- every slot is good or pending
      intro j' hj'
      have hj'S : j' < S.length := by simpa using hj'
      have hslot := Swarm.getD_map_range
        (fun j => match cacheLookup ce.cache (S.getD j dfltPt).pos with
          | some v => (⟨(S.getD j dfltPt).pos, v⟩ : Point)
          | none => (⟨(S.getD j dfltPt).pos, ⊤⟩ : Point))
        S.length j' dfltPt hj'S
      cases hl : cacheLookup ce.cache (S.getD j' dfltPt).pos with
      | some v =>
          left
          rw [hslot]
          simp only []
          rw [hl]
          simp only []
          exact hgood _ v hl
      | none =>
          right
          have hjF := cachePartition_covers ce.cache S 0 j' hj'S hl
          rcases List.mem_iff_getElem.mp (by simpa using hjF) with
            ⟨r, hr, hrj⟩
          have hrR : r < (SerialEvaler.Eval false obj
              (cachePartition ce.cache S 0).2).1.length := by
            rw [hslen, ← hfl]
            exact hr
          refine ⟨((SerialEvaler.Eval false obj
              (cachePartition ce.cache S 0).2).1[r],
            (cachePartition ce.cache S 0).1[r]), ?_, by simpa using hrj⟩
          apply List.mem_iff_getElem.mpr
          refine ⟨r, ?_, ?_⟩
          · rw [List.length_zip]
            omega
          · rw [List.getElem_zip]
    · -- every pending write carries the objective value at its slot
      rintro ⟨op, idx⟩ hpr
      rcases List.mem_iff_getElem.mp hpr with ⟨r, hr, hrpr⟩
      rw [List.length_zip] at hr
      have hrF : r < (cachePartition ce.cache S 0).1.length := by omega
      have hrN : r < (cachePartition ce.cache S 0).2.length := hfl ▸ hrF
      have hrR : r < (SerialEvaler.Eval false obj
          (cachePartition ce.cache S 0).2).1.length := by
        rw [hslen]; exact hrN
      rw [List.getElem_zip] at hrpr
      have hslotr := hsslots r hrN
      rw [List.getD_eq_getElem _ _ hrR] at hslotr
      rcases cachePartition_rank ce.cache S 0 r hrF with
        ⟨jj, hjj, hidx, hpt, hmiss⟩
      have hop : op = some ⟨((cachePartition ce.cache S 0).2.getD r
          dfltPt).pos,
          (obj ((cachePartition ce.cache S 0).2.getD r dfltPt).pos).1⟩ := by
        have := congrArg Prod.fst hrpr
        simp only [] at this
        rw [← this, hslotr]
      have hidx' : idx = jj := by
        have := congrArg Prod.snd hrpr
        simp only [] at this
        rw [← this, ← List.getD_eq_getElem _ 0 hrF, hidx]
        omega
      refine ⟨_, hop, ?_, ?_⟩
      · rw [hidx']
        simpa using hjj
      · have hsl0 := Swarm.getD_map_range
          (fun j => match cacheLookup ce.cache (S.getD j dfltPt).pos with
            | some v => (⟨(S.getD j dfltPt).pos, v⟩ : Point)
            | none => (⟨(S.getD j dfltPt).pos, ⊤⟩ : Point))
          S.length idx dfltPt (by rw [hidx']; exact hjj)
        rw [hsl0]
        simp only []
        rw [hidx', hmiss]
        simp only []
        rw [← hpt]
  · -- cache goodness
    show cacheGood obj (cacheStore ce.cache
      (SerialEvaler.Eval false obj (cachePartition ce.cache S 0).2).1)
    apply cacheStore_good obj _ ce.cache hgood
    intro p hp
    exact (serial_some_mem obj hpure _ p hp).2
  · -- miss characterization
    intro x
    show cacheLookup (cacheStore ce.cache
      (SerialEvaler.Eval false obj (cachePartition ce.cache S 0).2).1) x =
        none ↔ _
    rw [cacheStore_miss]
    constructor
    · rintro ⟨h1, h2⟩
      refine ⟨h1, fun hmem => ?_⟩
      have hmem' : x ∈ (cachePartition ce.cache S 0).2.map Point.pos := by
        rw [hnppos, List.mem_filter]
        exact ⟨hmem, by simpa using h1⟩
      rcases serial_some_cover obj hpure _ x hmem' with ⟨p, hpmem, hppos⟩
      exact h2 p hpmem hppos
    · rintro ⟨h1, h2⟩
      refine ⟨h1, fun p hpmem hppos => ?_⟩
      have := (serial_some_mem obj hpure _ p hpmem).1
      rw [hppos, hnppos, List.mem_filter] at this
      exact h2 this.1
  · -- no error
    show (SerialEvaler.Eval false obj (cachePartition ce.cache S 0).2).2.2.1
      = none
    exact hserr

end Optim

section CacheClaims

open Optim

/-- C4: for a pure objective (`obj` never errors; its observed value at a
position is always `(obj pos).1`, so "the value observed at its
position's first evaluation" is that value), after
`CacheEvaler.Eval(obj, S1)` followed by `CacheEvaler.Eval(obj, S2)` on
the same cache evaluator wrapping the serial evaluator, the total of the
reported call counts — the code increments them exactly once per
objective invocation — equals the number of distinct point positions
(hash = coordinate pattern) in `S1` together with `S2`, and every
returned result of either call carries the objective's value at its own
position. -/
theorem cache_eval_monotone (obj : Objective)
    (hpure : ∀ x, (obj x).2 = none) (S1 S2 : List Point) :
    (CacheEvaler.Eval NewCacheEvaler serialInner obj S1).1.2.1 +
      (CacheEvaler.Eval (CacheEvaler.Eval NewCacheEvaler serialInner obj
        S1).2 serialInner obj S2).1.2.1 =
      (dedupFirst ((S1 ++ S2).map Point.pos)).length ∧
    (∀ p ∈ (CacheEvaler.Eval NewCacheEvaler serialInner obj S1).1.1,
      p.val = (obj p.pos).1) ∧
    (∀ p ∈ (CacheEvaler.Eval (CacheEvaler.Eval NewCacheEvaler serialInner
        obj S1).2 serialInner obj S2).1.1,
      p.val = (obj p.pos).1) := by
  have hgood0 : cacheGood obj NewCacheEvaler.cache := by
    intro x v hv
    cases hv
  rcases cache_eval_serial_pure obj hpure NewCacheEvaler hgood0 S1 with
    ⟨hn1, hv1, hg1, hm1, _⟩
  rcases cache_eval_serial_pure obj hpure
    (CacheEvaler.Eval NewCacheEvaler serialInner obj S1).2 hg1 S2 with
    ⟨hn2, hv2, _, _, _⟩
  refine ⟨?_, hv1, hv2⟩
  have hnil : ∀ x : List ℚ, cacheLookup NewCacheEvaler.cache x = none :=
    fun x => rfl
  have h1 : (CacheEvaler.Eval NewCacheEvaler serialInner obj S1).1.2.1 =
      (S1.map Point.pos).toFinset.card := by
    rw [hn1]
    rw [List.filter_eq_self.mpr (fun a _ => by rw [hnil a]; rfl)]
  have h2 : (CacheEvaler.Eval (CacheEvaler.Eval NewCacheEvaler serialInner
      obj S1).2 serialInner obj S2).1.2.1 =
      ((S2.map Point.pos).toFinset \ (S1.map Point.pos).toFinset).card := by
    rw [hn2, ← toFinset_filter_not_mem]
    congr 2
    apply List.filter_congr
    intro x _
    rw [decide_eq_decide, hm1 x]
    simp [hnil x]
  rw [h1, h2, length_dedupFirst, List.map_append, List.toFinset_append]
  rw [Finset.union_comm]
  rw [← Finset.card_sdiff_add_card]
  omega

/-- C4 witness: the theorem applied to the constant objective (purity
discharged by `rfl`) and the batches `S1 = [⟨[], 0⟩]`, `S2 = [⟨[], 0⟩]`:
the two calls to `Eval` together invoke the objective once — the single
distinct position. -/
theorem cache_eval_monotone_witness :
    (CacheEvaler.Eval NewCacheEvaler serialInner
        (fun _ => (((0 : ℚ) : Val), none)) [⟨[], ((0 : ℚ) : Val)⟩]).1.2.1 +
      (CacheEvaler.Eval (CacheEvaler.Eval NewCacheEvaler serialInner
          (fun _ => (((0 : ℚ) : Val), none)) [⟨[], ((0 : ℚ) : Val)⟩]).2
        serialInner (fun _ => (((0 : ℚ) : Val), none))
        [⟨[], ((0 : ℚ) : Val)⟩]).1.2.1 =
      (dedupFirst (([(⟨[], ((0 : ℚ) : Val)⟩ : Point)] ++
        [(⟨[], ((0 : ℚ) : Val)⟩ : Point)]).map Point.pos)).length :=
  (cache_eval_monotone (fun _ => (((0 : ℚ) : Val), none))
    (fun _ => rfl) [⟨[], ((0 : ℚ) : Val)⟩] [⟨[], ((0 : ℚ) : Val)⟩]).1

end CacheClaims
